import Mathlib

/-!
phpdbg command input: tokenizer, parameter classifier, dispatcher.

A shallow embedding of `phpdbg_cmd.c` and proofs about it.

Representation conventions

* A C string is the list of its characters before the terminating NUL; a
  counted buffer (pointer plus length, or array plus count) is the list of its
  elements, so `length`, `argc` and `name_len` are the lengths of those lists.
* The accumulation buffer `b` of `phpdbg_read_argv` is a function from indices
  to characters together with the explicit index `l`. Its capacity
  `PHPDBG_MAX_CMD` is declared in a header that is not at hand, so it is a
  parameter; the source checks no index, and an access outside the array is
  undefined behaviour, which the embedding reports as `none`.
* Handlers are function pointers: a descriptor stores a handler identifier and
  the environment maps identifiers to state transformers.
* Handler invocations are recorded in a ghost list `calls`.
-/

namespace Phpdbg

/-! ## Characters and libc -/

/-- The NUL character. -/
def NUL : Char := Char.ofNat 0

/-- The double-quote character. -/
def QUOTE : Char := Char.ofNat 34

/-- The backslash character. -/
def BACKSLASH : Char := Char.ofNat 92

/-- The colon character. -/
def COLON : Char := Char.ofNat 58

/-- Zend's `SUCCESS`. -/
def SUCCESS : Int := 0

/-- Zend's `FAILURE`. -/
def FAILURE : Int := -1

/-- C `isspace` in the "C" locale: space, and the control characters
`\t \n \v \f \r` (codes 9 to 13). -/
def isspace (c : Char) : Bool :=
  decide (c.toNat = 32 ∨ (9 ≤ c.toNat ∧ c.toNat ≤ 13))

/-- Array write `b[i] = c`. -/
def writeAt (b : Nat → Char) (i : Nat) (c : Char) : Nat → Char :=
  fun j => if j = i then c else b j

/-- Zend `estrndup(b, n)` on an array: the first `n` characters. -/
def estrndup_buf (b : Nat → Char) (n : Nat) : List Char :=
  (List.range n).map b

/-- Zend `estrndup(s, n)` on a string: the first `n` characters. -/
def estrndup (s : List Char) (n : Nat) : List Char :=
  s.take n

/-- C `memcmp(a, b, n) == 0` on two buffers: the first `n` bytes agree. -/
def memcmp_eq (a b : List Char) (n : Nat) : Bool :=
  decide (a.take n = b.take n)

/-- C `strchr(s, c)`: offset of the first occurrence of `c`, if any. -/
def strchr : List Char → Char → Option Nat
  | [], _ => none
  | x :: xs, c => if x = c then some 0 else (strchr xs c).map (· + 1)

/-- Value of a digit character in bases up to 36. -/
def digitVal (c : Char) : Option Nat :=
  if 48 ≤ c.toNat ∧ c.toNat ≤ 57 then some (c.toNat - 48)
  else if 97 ≤ c.toNat ∧ c.toNat ≤ 122 then some (c.toNat - 97 + 10)
  else if 65 ≤ c.toNat ∧ c.toNat ≤ 90 then some (c.toNat - 65 + 10)
  else none

/-- The digit loop of `strtol`/`strtoul`: consume digits valid in `base`. -/
def accDigits (base : Nat) : List Char → Nat → Nat
  | [], acc => acc
  | c :: cs, acc =>
    match digitVal c with
    | some d => if d < base then accDigits base cs (acc * base + d) else acc
    | none => acc

/-- Is `c` a digit of the given base? -/
def isDigitOf (base : Nat) (c : Char) : Bool :=
  match digitVal c with
  | some d => decide (d < base)
  | none => false

/-- Sign, base and digit string that `strtol`/`strtoul` see after skipping
leading white space, an optional sign, and the `0x` / `0` prefix. -/
def strtoSplit (s : List Char) (base : Nat) : Bool × Nat × List Char :=
  let s1 := s.dropWhile isspace
  let neg := decide (s1.head? = some (Char.ofNat 45))
  let s2 := if s1.head? = some (Char.ofNat 45) ∨ s1.head? = some (Char.ofNat 43)
            then s1.drop 1 else s1
  let hexPrefix : Bool :=
    match s2 with
    | z :: x :: d :: _ =>
      decide (z.toNat = 48) && decide (x.toNat = 120 ∨ x.toNat = 88) && isDigitOf 16 d
    | _ => false
  if (base = 0 ∨ base = 16) ∧ hexPrefix = true then (neg, 16, s2.drop 2)
  else if base = 0 then
    (if s2.head? = some (Char.ofNat 48) then (neg, 8, s2) else (neg, 10, s2))
  else (neg, base, s2)

/-- `LONG_MAX` on an LP64 target. -/
def LONG_MAX : Int := 2 ^ 63 - 1

/-- `ULONG_MAX` on an LP64 target. -/
def ULONG_MAX : Nat := 2 ^ 64 - 1

/-- C `strtol(s, NULL, base)`, saturating at `LONG_MIN` / `LONG_MAX`. -/
def strtol (s : List Char) (base : Nat) : Int :=
  let (neg, bs, ds) := strtoSplit s base
  let v : Int := (accDigits bs ds 0 : Nat)
  if neg then (if v ≤ LONG_MAX + 1 then -v else -(LONG_MAX + 1))
  else (if v ≤ LONG_MAX then v else LONG_MAX)

/-- C `strtoul(s, NULL, base)`, saturating at `ULONG_MAX`; a minus sign
negates in the unsigned type. -/
def strtoul (s : List Char) (base : Nat) : Nat :=
  let (neg, bs, ds) := strtoSplit s base
  let v := accDigits bs ds 0
  if ULONG_MAX < v then ULONG_MAX
  else if neg then (ULONG_MAX + 1 - v) % (ULONG_MAX + 1) else v

/-! ## Data model -/

/-- One element of `argv`. In the source it is a `phpdbg_input_t` built by
`RESET_STATE` with `argv = NULL` and `argc = 0`; only `string` (with its
`length`) is ever read. -/
structure phpdbg_arg_t where
  string : List Char
  deriving DecidableEq, Repr

/-- Field `length` of an `argv` element. -/
def phpdbg_arg_t.length (t : phpdbg_arg_t) : Nat := t.string.length

/-- The input line `phpdbg_input_t`: the raw text and its tokens. -/
structure phpdbg_input_t where
  string : List Char
  argv : List phpdbg_arg_t
  deriving DecidableEq, Repr

/-- Field `length` of a line. -/
def phpdbg_input_t.length (i : phpdbg_input_t) : Nat := i.string.length

/-- Field `argc` of a line. -/
def phpdbg_input_t.argc (i : phpdbg_input_t) : Nat := i.argv.length

/-! ## Tokenizer: `phpdbg_read_argv` -/

/-- The `enum states` of `phpdbg_read_argv`. -/
inductive states where
  | IN_BETWEEN
  | IN_WORD
  | IN_STRING
  deriving DecidableEq, Repr

/-- The locals of `phpdbg_read_argv`: scanner state, accumulation buffer `b`,
accumulation index `l`, and the tokens emitted so far (`argv` with `*argc`). -/
structure argv_frame where
  state : states
  b : Nat → Char
  l : Nat
  argv : List phpdbg_arg_t

/-- Array write `b[i] = c` into `char b[PHPDBG_MAX_CMD]`. The source checks
no index; a write outside the array is undefined behaviour, reported as
`none`. -/
def store (PHPDBG_MAX_CMD : Nat) (b : Nat → Char) (i : Nat) (c : Char) :
    Option (Nat → Char) :=
  if i < PHPDBG_MAX_CMD then some (writeAt b i c) else none

/-- The statement `b[l++] = c`. -/
def push (PHPDBG_MAX_CMD : Nat) (c : Char) (f : argv_frame) : Option argv_frame :=
  match store PHPDBG_MAX_CMD f.b f.l c with
  | none => none
  | some b1 => some { f with b := b1, l := f.l + 1 }

/-- The macro `RESET_STATE()`: terminate `b` (the write `b[l] = 0`), emit
`estrndup(b, l)` as a token, reset `l`, return to `IN_BETWEEN`. -/
def RESET_STATE (PHPDBG_MAX_CMD : Nat) (f : argv_frame) : Option argv_frame :=
  match store PHPDBG_MAX_CMD f.b f.l NUL with
  | none => none
  | some b1 =>
    some { state := states.IN_BETWEEN
           b := b1
           l := 0
           argv := f.argv ++ [⟨estrndup_buf b1 f.l⟩] }

/-- One iteration of the `for` loop of `phpdbg_read_argv` at character `c`;
`prev` is the look-behind `buffer[(p - buffer) - 1]`, absent at offset 0,
where the read would be outside the line. The write `b[l-1] = c` has a
negative index when `l` is 0. -/
def phpdbg_read_argv_step (PHPDBG_MAX_CMD : Nat) (prev : Option Char) (c : Char)
    (f : argv_frame) : Option argv_frame :=
  match f.state with
  | states.IN_BETWEEN =>
    if isspace c then some f
    else if c = QUOTE then some { f with state := states.IN_STRING }
    else push PHPDBG_MAX_CMD c { f with state := states.IN_WORD }
  | states.IN_STRING =>
    if c = QUOTE then
      match prev with
      | none => none
      | some before =>
        if before = BACKSLASH then
          if f.l = 0 then none
          else
            match store PHPDBG_MAX_CMD f.b (f.l - 1) c with
            | none => none
            | some b1 => some { f with b := b1 }
        else RESET_STATE PHPDBG_MAX_CMD f
    else push PHPDBG_MAX_CMD c f
  | states.IN_WORD =>
    if isspace c then RESET_STATE PHPDBG_MAX_CMD f
    else push PHPDBG_MAX_CMD c f

/-- The `for` loop of `phpdbg_read_argv` over the rest of the buffer. -/
def phpdbg_read_argv_loop (PHPDBG_MAX_CMD : Nat) :
    Option Char → List Char → argv_frame → Option argv_frame
  | _, [], f => some f
  | prev, c :: cs, f =>
    match phpdbg_read_argv_step PHPDBG_MAX_CMD prev c f with
    | none => none
    | some f1 => phpdbg_read_argv_loop PHPDBG_MAX_CMD (some c) cs f1

/-- What `phpdbg_read_argv` hands back: the tokens (`NULL` in the source
exactly when there are none) and whether the unclosed-quote error was
reported through `phpdbg_error`. -/
structure read_argv_result where
  argv : List phpdbg_arg_t
  malformed : Bool
  deriving DecidableEq, Repr

/-- Number of tokens, the out-parameter `*argc`. -/
def read_argv_result.argc (r : read_argv_result) : Nat := r.argv.length

/-- The `switch (state)` after the loop of `phpdbg_read_argv`. -/
def phpdbg_read_argv_finish (PHPDBG_MAX_CMD : Nat) (f : argv_frame) :
    Option read_argv_result :=
  match f.state with
  | states.IN_WORD =>
    match RESET_STATE PHPDBG_MAX_CMD f with
    | none => none
    | some f1 => some { argv := f1.argv, malformed := false }
  | states.IN_STRING => some { argv := f.argv, malformed := true }
  | states.IN_BETWEEN => some { argv := f.argv, malformed := false }

/-- Initial locals of `phpdbg_read_argv`. The buffer is uninitialised in the
source; no token depends on this choice. -/
def argv_frame.init : argv_frame :=
  { state := states.IN_BETWEEN, b := fun _ => NUL, l := 0, argv := [] }

/-- The function `phpdbg_read_argv(buffer, &argc)` with a buffer `b` of
`PHPDBG_MAX_CMD` characters: `none` when the scan accesses `b` or the line
outside their bounds. -/
def phpdbg_read_argv (PHPDBG_MAX_CMD : Nat) (buffer : List Char) : Option read_argv_result :=
  match phpdbg_read_argv_loop PHPDBG_MAX_CMD none buffer argv_frame.init with
  | none => none
  | some f => phpdbg_read_argv_finish PHPDBG_MAX_CMD f

/-- The tokens of a result, as plain strings. -/
def read_argv_result.strings (r : read_argv_result) : List (List Char) :=
  r.argv.map (·.string)

/-! ## Helpers from `phpdbg_utils.c` -/

/-- Modelled from the spec: `phpdbg_trim` lives in `phpdbg_utils.c`, which is
not part of the sources at hand. It removes leading and trailing white space
("re-trim", "leading/trailing whitespace is trimmed") and returns a fresh
string, whose length is the out-parameter `new_len`. -/
def phpdbg_trim (str : List Char) : List Char :=
  ((str.dropWhile isspace).reverse.dropWhile isspace).reverse

/-- The helper tests of `phpdbg_utils.c` used by the classifier, and the
path-resolution collaborator. They are parameters of the embedding. -/
structure phpdbg_utils where
  phpdbg_is_addr : List Char → Bool
  phpdbg_is_numeric : List Char → Bool
  phpdbg_is_class_method : List Char → Nat → Option (List Char × List Char)
  phpdbg_resolve_path : List Char → List Char

/-! ## Parameter classifier: `phpdbg_parse_param` -/

/-- Modelled from the spec: `phpdbg_param_t` is declared in `phpdbg_cmd.h`,
which is not part of the sources at hand. The spec describes it as a tagged
variant: Empty, Address (unsigned), Numeric (signed), Method (class, name),
File (path, line), Str (string, with its recorded length). -/
inductive phpdbg_param_t where
  | EMPTY_PARAM
  | ADDR_PARAM (addr : Nat)
  | NUMERIC_PARAM (num : Int)
  | METHOD_PARAM (class_name : List Char) (func_name : List Char)
  | FILE_PARAM (name : List Char) (line : Int)
  | STR_PARAM (str : List Char) (len : Nat)
  deriving DecidableEq, Repr

/-- The function `phpdbg_parse_param(str, len, &param)`; the result is the
value left in `*param`. -/
def phpdbg_parse_param (u : phpdbg_utils) (str : List Char) (len : Nat) : phpdbg_param_t :=
  if len = 0 then phpdbg_param_t.EMPTY_PARAM
  else if u.phpdbg_is_addr str then phpdbg_param_t.ADDR_PARAM (strtoul str 16)
  else if u.phpdbg_is_numeric str then phpdbg_param_t.NUMERIC_PARAM (strtol str 0)
  else
    match u.phpdbg_is_class_method str (len + 1) with
    | some (class_name, func_name) => phpdbg_param_t.METHOD_PARAM class_name func_name
    | none =>
      match strchr str COLON with
      | some line_pos =>
        if u.phpdbg_is_numeric (str.drop (line_pos + 1)) then
          phpdbg_param_t.FILE_PARAM (u.phpdbg_resolve_path (str.take line_pos))
            (strtol (str.drop (line_pos + 1)) 0)
        else phpdbg_param_t.STR_PARAM (estrndup str len) len
      | none => phpdbg_param_t.STR_PARAM (estrndup str len) len

/-! ## Line acquisition: `phpdbg_read_input` -/

/-- The sanitising part of `phpdbg_read_input` for a line already acquired
(the `buffered` path): trim, then tokenize; `none` when the tokenizer leaves
its buffer. -/
def phpdbg_read_input (PHPDBG_MAX_CMD : Nat) (cmd : List Char) : Option phpdbg_input_t :=
  let string := phpdbg_trim cmd
  match phpdbg_read_argv PHPDBG_MAX_CMD string with
  | none => none
  | some r => some { string := string, argv := r.argv }

/-! ## Command registry -/

/-- A command descriptor `phpdbg_command_t`: `name` (`NULL` in the sentinel),
`alias` (NUL when unset), `handler` (a function pointer, `NULL` in the
sentinel) and `subs` (`NULL` when the command has no children). The fields
`tip` and `tip_len` are never read by the dispatcher. -/
inductive phpdbg_command_t where
  | mk (name : Option (List Char)) (alias_ : Char) (handler : Option Nat)
      (subs : Option (List phpdbg_command_t))

namespace phpdbg_command_t

/-- Field `name`. -/
def name : phpdbg_command_t → Option (List Char)
  | mk n _ _ _ => n

/-- Field `name_len`. -/
def name_len (c : phpdbg_command_t) : Nat := (c.name.getD []).length

/-- Field `alias` (a reserved word here, hence the underscore). -/
def alias_ : phpdbg_command_t → Char
  | mk _ a _ _ => a

/-- Field `handler`. -/
def handler : phpdbg_command_t → Option Nat
  | mk _ _ h _ => h

/-- Field `subs`. -/
def subs : phpdbg_command_t → Option (List phpdbg_command_t)
  | mk _ _ _ s => s

end phpdbg_command_t

/-- The `if` condition of the table loop of `phpdbg_do_cmd`: the name has the
length and the bytes of `argv[0]`, or the alias is set and `argv[0]` is that
one character. -/
def phpdbg_cmd_matches (command : phpdbg_command_t) (arg0 : phpdbg_arg_t) : Bool :=
  (decide (command.name_len = arg0.length) &&
    memcmp_eq (command.name.getD []) arg0.string command.name_len) ||
  (decide (command.alias_ ≠ NUL) &&
    decide (arg0.length = 1) &&
    decide (some command.alias_ = arg0.string.head?))

/-- The table loop `while (command && command->name && command->handler)` of
`phpdbg_do_cmd` up to the `break`: the first entry before the sentinel that
satisfies the `if` condition, with its handler. Every path through the body
of the `if` leaves the loop, so the body runs for that entry only. -/
def phpdbg_select : List phpdbg_command_t → phpdbg_arg_t → Option (phpdbg_command_t × Nat)
  | [], _ => none
  | command :: more, arg0 =>
    match command.name, command.handler with
    | some _, some h =>
      if phpdbg_cmd_matches command arg0 then some (command, h)
      else phpdbg_select more arg0
    | _, _ => none

/-! ## Session and dispatcher: `phpdbg_do_cmd` -/

/-- The module globals touched by the dispatcher (`PHPDBG_G`): `flags`,
`lcmd`, `lparam`, and everything else in `rest`. -/
structure phpdbg_globals (σ : Type) where
  flags : Nat
  lcmd : Option phpdbg_command_t
  lparam : phpdbg_param_t
  rest : σ

/-- What the dispatcher needs from outside this file: the flag bit
`PHPDBG_IS_INITIALIZING`, the helpers of `phpdbg_utils.c`, and the code behind
each handler pointer. A handler gets the Param and the Line read-only and may
change any global. -/
structure phpdbg_env (σ : Type) where
  PHPDBG_IS_INITIALIZING : Nat
  utils : phpdbg_utils
  handler : Nat → phpdbg_param_t → phpdbg_input_t → phpdbg_globals σ → Int × phpdbg_globals σ

/-- Ghost record of one handler invocation. -/
structure handler_call where
  command : phpdbg_command_t
  param : phpdbg_param_t
  input : phpdbg_input_t
  rc : Int

/-- Everything a call of `phpdbg_do_cmd` leaves behind: the return value, the
caller's `*input`, the globals, and the ghost list of handler invocations. -/
structure do_cmd_result (σ : Type) where
  rc : Int
  input : phpdbg_input_t
  globals : phpdbg_globals σ
  calls : List handler_call

/-- The derived sub-Line text: `string += argv[0]->length`,
`length -= argv[0]->length`, then `phpdbg_trim`. -/
def phpdbg_residual (string : List Char) (arg0 : phpdbg_arg_t) : List Char :=
  phpdbg_trim (string.drop arg0.length)

/-- The part of the `if` body of `phpdbg_do_cmd` after the sub-command
attempt: cut `argv[0]` off the raw text and classify the rest (when
`argc > 1`), record the command in the session (unless initializing), call
the handler. `calls` holds the invocations made by a failed sub-command
attempt. -/
def phpdbg_do_cmd_invoke {σ : Type} (env : phpdbg_env σ) (command : phpdbg_command_t)
    (h : Nat) (input : phpdbg_input_t) (arg0 : phpdbg_arg_t)
    (g : phpdbg_globals σ) (calls : List handler_call) : do_cmd_result σ :=
  let input1 : phpdbg_input_t :=
    if input.argc > 1 then { input with string := phpdbg_residual input.string arg0 }
    else input
  let param : phpdbg_param_t :=
    if input.argc > 1 then phpdbg_parse_param env.utils input1.string input1.length
    else phpdbg_param_t.EMPTY_PARAM
  let g1 : phpdbg_globals σ :=
    if g.flags &&& env.PHPDBG_IS_INITIALIZING = 0 then
      { g with lcmd := some command, lparam := param }
    else g
  let r := env.handler h param input1 g1
  { rc := r.1, input := input1, globals := r.2,
    calls := calls ++ [{ command := command, param := param, input := input1, rc := r.1 }] }

/-- The body of `phpdbg_do_cmd` by recursion on `argv`, the raw text carried
along: the recursive call receives `argv + 1` and the trimmed rest. -/
def phpdbg_do_cmd_argv {σ : Type} (env : phpdbg_env σ) :
    List phpdbg_arg_t → List Char → List phpdbg_command_t → phpdbg_globals σ → do_cmd_result σ
  | [], string, _, g =>
    { rc := FAILURE, input := { string := string, argv := [] }, globals := g, calls := [] }
  | arg0 :: rest, string, table, g =>
    let input : phpdbg_input_t := { string := string, argv := arg0 :: rest }
    match phpdbg_select table arg0 with
    | none => { rc := FAILURE, input := input, globals := g, calls := [] }
    | some (command, h) =>
      if input.argc > 1 then
        match command.subs with
        | some subs =>
          let r := phpdbg_do_cmd_argv env rest (phpdbg_residual string arg0) subs g
          if r.rc = SUCCESS then
            { rc := SUCCESS, input := input, globals := r.globals, calls := r.calls }
          else phpdbg_do_cmd_invoke env command h input arg0 r.globals r.calls
        | none => phpdbg_do_cmd_invoke env command h input arg0 g []
      else phpdbg_do_cmd_invoke env command h input arg0 g []

/-- The function `phpdbg_do_cmd(command, input)`. -/
def phpdbg_do_cmd {σ : Type} (env : phpdbg_env σ) (table : List phpdbg_command_t)
    (input : phpdbg_input_t) (g : phpdbg_globals σ) : do_cmd_result σ :=
  phpdbg_do_cmd_argv env input.argv input.string table g

/-! ## A concrete registry and environment -/

/-- Modelled from the spec: `phpdbg_is_addr` lives in `phpdbg_utils.c`, which
is not part of the sources at hand. The spec asks for "an address literal
lexical form (e.g., hexadecimal-prefixed)": the text starts with `0x`. -/
def phpdbg_is_addr (str : List Char) : Bool :=
  match str with
  | z :: x :: _ => decide (z.toNat = 48) && decide (x.toNat = 120)
  | _ => false

/-- Modelled from the spec: `phpdbg_is_numeric` lives in `phpdbg_utils.c`,
which is not part of the sources at hand. The spec asks for "a general integer
literal (decimal/octal/hex per standard numeric-literal rules)": a non-zero
digit followed by decimal digits, or `0` followed by octal digits, or `0x` /
`0X` followed by at least one hexadecimal digit. -/
def phpdbg_is_numeric (str : List Char) : Bool :=
  match str with
  | [] => false
  | z :: more =>
    if z.toNat = 48 then
      match more with
      | x :: d :: ds =>
        if x.toNat = 120 ∨ x.toNat = 88 then (d :: ds).all (isDigitOf 16)
        else more.all (isDigitOf 8)
      | _ => more.all (isDigitOf 8)
    else (z :: more).all (isDigitOf 10)

/-- Offset of the first `::` in a string. -/
def findSep : List Char → Option Nat
  | [] => none
  | [_] => none
  | x :: y :: more =>
    if x = COLON ∧ y = COLON then some 0 else (findSep (y :: more)).map (· + 1)

/-- Modelled from the spec: `phpdbg_is_class_method` lives in
`phpdbg_utils.c`, which is not part of the sources at hand. The spec asks for
"a `Class::method`-style pattern", split "into class and method substrings":
the text before and the text after the first `::`, both non-empty. -/
def phpdbg_is_class_method (str : List Char) (_len : Nat) : Option (List Char × List Char) :=
  match findSep str with
  | none => none
  | some i =>
    if i = 0 ∨ str.length ≤ i + 2 then none
    else some (str.take i, str.drop (i + 2))

/-- The helpers as the spec describes them, over a path-resolution
collaborator `canonical`. -/
def spec_utils (canonical : List Char → List Char) : phpdbg_utils :=
  { phpdbg_is_addr := phpdbg_is_addr
    phpdbg_is_numeric := phpdbg_is_numeric
    phpdbg_is_class_method := phpdbg_is_class_method
    phpdbg_resolve_path := canonical }

/-- The sentinel that ends a descriptor table. -/
def sentinel : phpdbg_command_t := phpdbg_command_t.mk none NUL none none

/-- The child `line` of `break`, handler 2. -/
def cmd_line : phpdbg_command_t := phpdbg_command_t.mk (some "line".toList) NUL (some 2) none

/-- The child `func` of `break`, handler 3. -/
def cmd_func : phpdbg_command_t := phpdbg_command_t.mk (some "func".toList) NUL (some 3) none

/-- The command `break`, alias `b`, handler 1, children `line` and `func`. -/
def cmd_break : phpdbg_command_t :=
  phpdbg_command_t.mk (some "break".toList) (Char.ofNat 98) (some 1)
    (some [cmd_line, cmd_func, sentinel])

/-- The registry of the spec's example: `break` with its children. -/
def break_table : List phpdbg_command_t := [cmd_break, sentinel]

/-- An environment whose handlers all return `rc` and touch no global; the
initializing flag is bit 0. -/
def const_env (rc : Int) : phpdbg_env Unit :=
  { PHPDBG_IS_INITIALIZING := 1
    utils := spec_utils id
    handler := fun _ _ _ g => (rc, g) }

/-- A buffer capacity for the worked examples. `PHPDBG_MAX_CMD` itself is
defined in `phpdbg.h`; every general statement takes it as a parameter. -/
def EXAMPLE_MAX_CMD : Nat := 500

/-- The Line `phpdbg_read_input` builds from `cmd` with a buffer of
`EXAMPLE_MAX_CMD` characters (the empty Line should the buffer not hold
it). -/
def example_line (cmd : List Char) : phpdbg_input_t :=
  match phpdbg_read_input EXAMPLE_MAX_CMD cmd with
  | some input => input
  | none => { string := [], argv := [] }

/-- A session outside initialization with nothing remembered. -/
def fresh_globals : phpdbg_globals Unit :=
  { flags := 0, lcmd := none, lparam := phpdbg_param_t.EMPTY_PARAM, rest := () }

/-- The handler identifiers and Params of the recorded invocations. -/
def call_summary (calls : List handler_call) : List (Option Nat × phpdbg_param_t) :=
  calls.map (fun c => (c.command.handler, c.param))

/-! ## Specification-side vocabulary -/

/-- The matching rule in the words of the spec: the registered name equals
Token[0] exactly, or the alias is set and Token[0] is exactly that one
character. -/
def NameOrAliasMatch (command : phpdbg_command_t) (arg0 : phpdbg_arg_t) : Prop :=
  command.name = some arg0.string ∨ (command.alias_ ≠ NUL ∧ arg0.string = [command.alias_])

/-- A terminating sentinel: an entry without a name or without a handler. -/
def IsSentinel (command : phpdbg_command_t) : Prop :=
  command.name = none ∨ command.handler = none

/-- Handlers leave the session alone: a handler neither enters nor leaves the
initializing state (other flag bits are free), and `lcmd` and `lparam` are the
same after a handler as before it. -/
def HandlersKeepSession {σ : Type} (env : phpdbg_env σ) : Prop :=
  ∀ (h : Nat) (param : phpdbg_param_t) (input : phpdbg_input_t) (g : phpdbg_globals σ),
    ((env.handler h param input g).2.flags &&& env.PHPDBG_IS_INITIALIZING = 0 ↔
      g.flags &&& env.PHPDBG_IS_INITIALIZING = 0) ∧
    (env.handler h param input g).2.lcmd = g.lcmd ∧
    (env.handler h param input g).2.lparam = g.lparam

/-- The space character. -/
def SPACE : Char := Char.ofNat 32

/-- The scanner's locals seen through what can still reach a token: the
state, the accumulated characters `b[0 .. l)`, and the tokens emitted. -/
structure scan_view where
  state : states
  acc : List Char
  argv : List phpdbg_arg_t

/-- The view of a frame. -/
def argv_frame.view (f : argv_frame) : scan_view :=
  { state := f.state, acc := estrndup_buf f.b f.l, argv := f.argv }

/-- What a loop iteration of `phpdbg_read_argv` whose accesses are in bounds
does to the view (lemma `step_view`); a device of the proofs, not a model of
the buffer. -/
def view_step (prev : Option Char) (c : Char) (v : scan_view) : scan_view :=
  match v.state with
  | states.IN_BETWEEN =>
    if isspace c then v
    else if c = QUOTE then { v with state := states.IN_STRING }
    else { v with state := states.IN_WORD, acc := v.acc ++ [c] }
  | states.IN_STRING =>
    if c = QUOTE then
      if prev = some BACKSLASH then
        { v with acc := if v.acc = [] then [] else v.acc.dropLast ++ [c] }
      else { state := states.IN_BETWEEN, acc := [], argv := v.argv ++ [⟨v.acc⟩] }
    else { v with acc := v.acc ++ [c] }
  | states.IN_WORD =>
    if isspace c then { state := states.IN_BETWEEN, acc := [], argv := v.argv ++ [⟨v.acc⟩] }
    else { v with acc := v.acc ++ [c] }

/-- What a run of the loop of `phpdbg_read_argv` whose accesses are in bounds
does to the view (lemma `loop_view`). -/
def view_loop : Option Char → List Char → scan_view → scan_view
  | _, [], v => v
  | prev, c :: cs, v => view_loop (some c) cs (view_step prev c v)

/-- What the final `switch` of `phpdbg_read_argv` returns from a view when
its terminator write is in bounds (lemma `finish_view`). -/
def view_finish (v : scan_view) : read_argv_result :=
  match v.state with
  | states.IN_WORD => { argv := v.argv ++ [⟨v.acc⟩], malformed := false }
  | states.IN_STRING => { argv := v.argv, malformed := true }
  | states.IN_BETWEEN => { argv := v.argv, malformed := false }

/-- The look-behind character after scanning `xs`, `prev` being the one
before. -/
def lastOr : Option Char → List Char → Option Char
  | prev, [] => prev
  | _, c :: cs => lastOr (some c) cs

/-- The words of a line in the words of the spec: the line split on white
space, empty pieces dropped. -/
def split_words (line : List Char) : List (List Char) :=
  (line.splitOnP isspace).filter (fun w => decide (w ≠ []))

/-- The words still to come when `acc` is the word under way: its rest is the
first piece. -/
def words_after (acc : List Char) : List (List Char) → List (List Char)
  | [] => [acc]
  | first :: more => (acc ++ first) :: more.filter (fun w => decide (w ≠ []))

/-- What a finished dispatch says about the session, for handlers that leave
the session slots alone: either nothing was invoked, the call failed and the
globals are untouched, or the last invocation carries the return value and,
outside initialization, the session holds its descriptor and Param. -/
def SessionOutcome {σ : Type} (env : phpdbg_env σ) (g : phpdbg_globals σ)
    (r : do_cmd_result σ) : Prop :=
  (r.globals.flags &&& env.PHPDBG_IS_INITIALIZING = 0 ↔
    g.flags &&& env.PHPDBG_IS_INITIALIZING = 0) ∧
  ((r.calls = [] ∧ r.rc = FAILURE ∧ r.globals = g) ∨
   (∃ pre e, r.calls = pre ++ [e] ∧ e.rc = r.rc ∧
      (g.flags &&& env.PHPDBG_IS_INITIALIZING = 0 →
        r.globals.lcmd = some e.command ∧ r.globals.lparam = e.param) ∧
      (g.flags &&& env.PHPDBG_IS_INITIALIZING ≠ 0 →
        r.globals.lcmd = g.lcmd ∧ r.globals.lparam = g.lparam)))

/-- The index invariant of the tokenizer loop after `n` characters, `prev`
being the last one consumed: `l` is at most `n`, and in `IN_STRING` at least
one character has been consumed and, if the last one was a backslash, `l` is
at least 1. -/
def IndexInv (prev : Option Char) (f : argv_frame) (n : Nat) : Prop :=
  f.l ≤ n ∧
  (f.state = states.IN_STRING →
    1 ≤ n ∧ prev ≠ none ∧ (prev = some BACKSLASH → 1 ≤ f.l))


/-- Two frames agree in what decides whether an access is in bounds: the
state and the index `l`. -/
def Shape (f g : argv_frame) : Prop :=
  f.state = g.state ∧ f.l = g.l

/-- The tags of `phpdbg_param_type`, as `phpdbg_get_param_type` lists them. -/
inductive phpdbg_param_type where
  | EMPTY_PARAM
  | ADDR_PARAM
  | NUMERIC_PARAM
  | METHOD_PARAM
  | FILE_PARAM
  | STR_PARAM
  deriving DecidableEq, Repr

/-- The object behind `phpdbg_param_t *param`, member by member as
`phpdbg_cmd.c` names them: `type`, `addr`, `num`, `method.class`,
`method.name`, `file.name`, `file.line`, `str`, `len`. The declaration is in
`phpdbg_cmd.h`; the members are kept apart here, so a write to one leaves the
others as they were. -/
structure phpdbg_param_obj where
  type : phpdbg_param_type
  addr : Nat
  num : Int
  method_class : List Char
  method_name : List Char
  file_name : List Char
  file_line : Int
  str : List Char
  len : Nat
  deriving DecidableEq, Repr

/-- The function `phpdbg_parse_param(str, len, param)` as the member writes it
makes on `*param`. -/
def phpdbg_parse_param_obj (u : phpdbg_utils) (str : List Char) (len : Nat)
    (param : phpdbg_param_obj) : phpdbg_param_obj :=
  if len = 0 then { param with type := phpdbg_param_type.EMPTY_PARAM }
  else if u.phpdbg_is_addr str then
    { param with addr := strtoul str 16, type := phpdbg_param_type.ADDR_PARAM }
  else if u.phpdbg_is_numeric str then
    { param with num := strtol str 0, type := phpdbg_param_type.NUMERIC_PARAM }
  else
    match u.phpdbg_is_class_method str (len + 1) with
    | some (class_name, func_name) =>
      { param with method_class := class_name, method_name := func_name,
                   type := phpdbg_param_type.METHOD_PARAM }
    | none =>
      match strchr str COLON with
      | some line_pos =>
        if u.phpdbg_is_numeric (str.drop (line_pos + 1)) then
          { param with file_name := u.phpdbg_resolve_path (str.take line_pos),
                       file_line := strtol (str.drop (line_pos + 1)) 0,
                       type := phpdbg_param_type.FILE_PARAM }
        else { param with str := estrndup str len, len := len,
                          type := phpdbg_param_type.STR_PARAM }
      | none => { param with str := estrndup str len, len := len,
                             type := phpdbg_param_type.STR_PARAM }

/-- The tagged variant an object stands for: the tag with the members that
belong to it. -/
def phpdbg_param_obj.variant (p : phpdbg_param_obj) : phpdbg_param_t :=
  match p.type with
  | phpdbg_param_type.EMPTY_PARAM => phpdbg_param_t.EMPTY_PARAM
  | phpdbg_param_type.ADDR_PARAM => phpdbg_param_t.ADDR_PARAM p.addr
  | phpdbg_param_type.NUMERIC_PARAM => phpdbg_param_t.NUMERIC_PARAM p.num
  | phpdbg_param_type.METHOD_PARAM => phpdbg_param_t.METHOD_PARAM p.method_class p.method_name
  | phpdbg_param_type.FILE_PARAM => phpdbg_param_t.FILE_PARAM p.file_name p.file_line
  | phpdbg_param_type.STR_PARAM => phpdbg_param_t.STR_PARAM p.str p.len

/-- The number a string of digits denotes in positional notation to the given
base (at most 10). -/
def digitsValue (base : Nat) (ds : List Char) : Nat :=
  ds.foldl (fun a c => a * base + (c.toNat - 48)) 0


theorem do_cmd_eq_argv {σ : Type} (env : phpdbg_env σ) (table : List phpdbg_command_t)
    (input : phpdbg_input_t) (g : phpdbg_globals σ) (argv : List phpdbg_arg_t)
    (hargv : input.argv = argv) :
    phpdbg_do_cmd env table input g = phpdbg_do_cmd_argv env argv input.string table g := by
  subst hargv; rfl

theorem input_eta (input : phpdbg_input_t) (argv : List phpdbg_arg_t)
    (hargv : input.argv = argv) :
    ({ string := input.string, argv := argv } : phpdbg_input_t) = input := by
  subst hargv; rfl

/-! ## Dispatcher: C1 -/

/-- C1: when Token[0] selects a descriptor with children, more than one token
is present, and the recursive call on the derived sub-Line against the child
table returns success, the outer call returns success with exactly the
handler invocations and globals of the recursive call: the outer descriptor's
handler is not invoked. -/
theorem do_cmd_child_success_wins {σ : Type} (env : phpdbg_env σ)
    (table : List phpdbg_command_t) (input : phpdbg_input_t) (g : phpdbg_globals σ)
    (arg0 : phpdbg_arg_t) (rest : List phpdbg_arg_t)
    (command : phpdbg_command_t) (h : Nat) (subs : List phpdbg_command_t)
    (hargv : input.argv = arg0 :: rest) (hargc : input.argc > 1)
    (hsel : phpdbg_select table arg0 = some (command, h))
    (hsubs : command.subs = some subs)
    (hrec : (phpdbg_do_cmd env subs
      { string := phpdbg_residual input.string arg0, argv := rest } g).rc = SUCCESS) :
    (phpdbg_do_cmd env table input g).rc = SUCCESS ∧
    (phpdbg_do_cmd env table input g).calls =
      (phpdbg_do_cmd env subs
        { string := phpdbg_residual input.string arg0, argv := rest } g).calls ∧
    (phpdbg_do_cmd env table input g).globals =
      (phpdbg_do_cmd env subs
        { string := phpdbg_residual input.string arg0, argv := rest } g).globals ∧
    (phpdbg_do_cmd env table input g).input = input := by
  have hc : ({ string := input.string, argv := arg0 :: rest } : phpdbg_input_t).argc > 1 := by
    rw [input_eta input _ hargv]; exact hargc
  have hrec2 : (phpdbg_do_cmd_argv env rest (phpdbg_residual input.string arg0) subs g).rc
      = SUCCESS := hrec
  rw [do_cmd_eq_argv env table input g _ hargv]
  simp only [phpdbg_do_cmd_argv, hsel, hsubs, hc, hrec2, if_true, phpdbg_do_cmd]
  exact ⟨trivial, trivial, trivial, input_eta input _ hargv⟩

/-- Witness for C1: `break line 10` runs only the handler of the child `line`
(handler 2), with Numeric(10). -/
theorem do_cmd_child_success_wins_witness :
    (phpdbg_do_cmd (const_env SUCCESS) break_table
      (example_line "break line 10".toList) fresh_globals).rc = SUCCESS ∧
    call_summary (phpdbg_do_cmd (const_env SUCCESS) break_table
      (example_line "break line 10".toList) fresh_globals).calls
      = [(some 2, phpdbg_param_t.NUMERIC_PARAM 10)] := by
  have key := do_cmd_child_success_wins (const_env SUCCESS) break_table
    (example_line "break line 10".toList) fresh_globals
    ⟨"break".toList⟩ [⟨"line".toList⟩, ⟨"10".toList⟩] cmd_break 1
    [cmd_line, cmd_func, sentinel] (by decide) (by decide) rfl rfl (by decide)
  refine ⟨key.1, ?_⟩
  rw [key.2.1]
  decide

/-! ## Dispatcher: the matching rule (C3) -/

theorem cmd_matches_iff (command : phpdbg_command_t) (arg0 : phpdbg_arg_t) (n : List Char)
    (hn : command.name = some n) :
    phpdbg_cmd_matches command arg0 = true ↔ NameOrAliasMatch command arg0 := by
  unfold phpdbg_cmd_matches NameOrAliasMatch memcmp_eq phpdbg_command_t.name_len
    phpdbg_arg_t.length
  simp only [hn, Option.getD_some, Bool.or_eq_true, Bool.and_eq_true, decide_eq_true_eq]
  constructor
  · rintro (⟨hl, ht⟩ | ⟨⟨ha, hl⟩, hh⟩)
    · left
      rw [List.take_length, hl, List.take_length] at ht
      rw [ht]
    · right
      refine ⟨ha, ?_⟩
      cases hs : arg0.string with
      | nil => rw [hs] at hl; simp at hl
      | cons c cs =>
        rw [hs] at hl hh
        simp only [List.length_cons, add_left_eq_self, List.length_eq_zero] at hl
        simp only [List.head?_cons, Option.some.injEq] at hh
        rw [hl, hh]
  · rintro (h | ⟨ha, hs⟩)
    · left
      simp only [Option.some.injEq] at h
      subst h
      simp
    · right
      simp [ha, hs]

theorem select_some_iff (table : List phpdbg_command_t) (arg0 : phpdbg_arg_t)
    (command : phpdbg_command_t) (h : Nat) :
    phpdbg_select table arg0 = some (command, h) ↔
      ∃ pre post, table = pre ++ command :: post ∧
        (∀ d ∈ pre, ¬ IsSentinel d ∧ ¬ NameOrAliasMatch d arg0) ∧
        ¬ IsSentinel command ∧ command.handler = some h ∧
        NameOrAliasMatch command arg0 := by
  induction table with
  | nil => simp [phpdbg_select]
  | cons d ds ih =>
    cases hn : d.name with
    | none =>
      have hsent : IsSentinel d := Or.inl hn
      simp only [phpdbg_select, hn]
      constructor
      · intro hx; cases hx
      · rintro ⟨pre, post, htab, hpre, hns, -, -⟩
        cases pre with
        | nil =>
          simp only [List.nil_append, List.cons.injEq] at htab
          rw [← htab.1] at hns
          exact absurd hsent hns
        | cons x xs =>
          simp only [List.cons_append, List.cons.injEq] at htab
          exact absurd hsent (htab.1 ▸ (hpre x (List.mem_cons_self x xs)).1)
    | some n =>
      cases hh : d.handler with
      | none =>
        have hsent : IsSentinel d := Or.inr hh
        simp only [phpdbg_select, hn, hh]
        constructor
        · intro hx; cases hx
        · rintro ⟨pre, post, htab, hpre, hns, -, -⟩
          cases pre with
          | nil =>
            simp only [List.nil_append, List.cons.injEq] at htab
            rw [← htab.1] at hns
            exact absurd hsent hns
          | cons x xs =>
            simp only [List.cons_append, List.cons.injEq] at htab
            exact absurd hsent (htab.1 ▸ (hpre x (List.mem_cons_self x xs)).1)
      | some hd =>
        have hnot : ¬ IsSentinel d := by
          unfold IsSentinel; rw [hn, hh]; simp
        have hm := cmd_matches_iff d arg0 n hn
        by_cases hmatch : phpdbg_cmd_matches d arg0 = true
        · simp only [phpdbg_select, hn, hh, hmatch, if_true, Option.some.injEq, Prod.mk.injEq]
          constructor
          · rintro ⟨hc, hhd⟩
            subst hc; subst hhd
            exact ⟨[], ds, rfl, by simp, hnot, hh, hm.1 hmatch⟩
          · rintro ⟨pre, post, htab, hpre, -, hch, -⟩
            cases pre with
            | nil =>
              simp only [List.nil_append, List.cons.injEq] at htab
              refine ⟨htab.1, ?_⟩
              rw [← htab.1, hh] at hch
              exact Option.some.inj hch
            | cons x xs =>
              simp only [List.cons_append, List.cons.injEq] at htab
              exact absurd (hm.1 hmatch) (htab.1 ▸ (hpre x (List.mem_cons_self x xs)).2)
        · simp only [phpdbg_select, hn, hh, hmatch, Bool.false_eq_true, if_false]
          rw [ih]
          constructor
          · rintro ⟨pre, post, htab, hpre, hrest⟩
            refine ⟨d :: pre, post, by rw [htab]; rfl, ?_, hrest⟩
            intro x hx
            rcases List.mem_cons.1 hx with hx | hx
            · subst hx; exact ⟨hnot, fun hc => hmatch (hm.2 hc)⟩
            · exact hpre x hx
          · rintro ⟨pre, post, htab, hpre, hns, hch, hmc⟩
            cases pre with
            | nil =>
              simp only [List.nil_append, List.cons.injEq] at htab
              exact absurd (hm.2 (htab.1 ▸ hmc)) hmatch
            | cons x xs =>
              simp only [List.cons_append, List.cons.injEq] at htab
              exact ⟨xs, post, htab.2, fun y hy => hpre y (List.mem_cons_of_mem x hy),
                hns, hch, hmc⟩

theorem select_none_of_no_match (table : List phpdbg_command_t) (arg0 : phpdbg_arg_t)
    (hno : ∀ d ∈ table, ¬ NameOrAliasMatch d arg0) :
    phpdbg_select table arg0 = none := by
  cases hs : phpdbg_select table arg0 with
  | none => rfl
  | some ch =>
    obtain ⟨command, h⟩ := ch
    obtain ⟨pre, post, htab, -, -, -, hmc⟩ := (select_some_iff table arg0 command h).1 hs
    exact absurd hmc (hno command (by rw [htab]; simp))

/-- C3: the descriptor the table loop of `phpdbg_do_cmd` selects for Token[0]
is the first entry in table order, before the terminating sentinel, whose
name equals Token[0] exactly or whose alias is set and is Token[0] as a
one-character token: every earlier entry is a live entry that does not match,
so a later matching entry is never selected, and a name of which the token is
only a prefix or an extension does not match by name. -/
theorem select_first_match (table : List phpdbg_command_t) (arg0 : phpdbg_arg_t)
    (command : phpdbg_command_t) (h : Nat) :
    (phpdbg_select table arg0 = some (command, h) ↔
      ∃ pre post, table = pre ++ command :: post ∧
        (∀ d ∈ pre, ¬ IsSentinel d ∧ ¬ NameOrAliasMatch d arg0) ∧
        ¬ IsSentinel command ∧ command.handler = some h ∧
        NameOrAliasMatch command arg0) ∧
    (∀ n : List Char, command.name = some n → n ≠ arg0.string →
      (phpdbg_cmd_matches command arg0 = true ↔
        (command.alias_ ≠ NUL ∧ arg0.string = [command.alias_]))) := by
  refine ⟨select_some_iff table arg0 command h, ?_⟩
  intro n hn hne
  rw [cmd_matches_iff command arg0 n hn]
  unfold NameOrAliasMatch
  rw [hn]
  constructor
  · rintro (hx | hx)
    · exact absurd (Option.some.inj hx) hne
    · exact hx
  · exact Or.inr

/-- Witness for C3: in the child table of `break` the token `func` selects
`func` after the live, non-matching `line`; and `brea`, a prefix of the name
`break`, could match `break` only through the alias, which it is not. -/
theorem select_first_match_witness :
    (∃ pre post, [cmd_line, cmd_func, sentinel] = pre ++ cmd_func :: post ∧
        (∀ d ∈ pre, ¬ IsSentinel d ∧ ¬ NameOrAliasMatch d ⟨"func".toList⟩) ∧
        ¬ IsSentinel cmd_func ∧ cmd_func.handler = some 3 ∧
        NameOrAliasMatch cmd_func ⟨"func".toList⟩) ∧
    (phpdbg_cmd_matches cmd_break ⟨"brea".toList⟩ = true ↔
      (cmd_break.alias_ ≠ NUL ∧ "brea".toList = [cmd_break.alias_])) :=
  ⟨(select_first_match [cmd_line, cmd_func, sentinel] ⟨"func".toList⟩ cmd_func 3).1.1 rfl,
   (select_first_match [] ⟨"brea".toList⟩ cmd_break 1).2 "break".toList rfl (by decide)⟩

/-! ## Dispatcher: no match (C6) and a single token (C7) -/

/-- C6: when no descriptor of the table matches Token[0] by name or alias,
`phpdbg_do_cmd` returns failure, invokes no handler, and leaves every global
(so the last command and the last parameter) as it was. -/
theorem do_cmd_no_match {σ : Type} (env : phpdbg_env σ)
    (table : List phpdbg_command_t) (input : phpdbg_input_t) (g : phpdbg_globals σ)
    (arg0 : phpdbg_arg_t) (rest : List phpdbg_arg_t)
    (hargv : input.argv = arg0 :: rest)
    (hno : ∀ d ∈ table, ¬ NameOrAliasMatch d arg0) :
    (phpdbg_do_cmd env table input g).rc = FAILURE ∧
    (phpdbg_do_cmd env table input g).calls = [] ∧
    (phpdbg_do_cmd env table input g).globals = g := by
  rw [do_cmd_eq_argv env table input g _ hargv]
  simp only [phpdbg_do_cmd_argv, select_none_of_no_match table arg0 hno]
  exact ⟨trivial, trivial, trivial⟩

/-- Witness for C6: `zzz` against the table that holds only `break`. -/
theorem do_cmd_no_match_witness :
    (phpdbg_do_cmd (const_env SUCCESS) break_table
      (example_line "zzz".toList) fresh_globals).rc = FAILURE ∧
    (phpdbg_do_cmd (const_env SUCCESS) break_table
      (example_line "zzz".toList) fresh_globals).calls = [] ∧
    (phpdbg_do_cmd (const_env SUCCESS) break_table
      (example_line "zzz".toList) fresh_globals).globals = fresh_globals :=
  do_cmd_no_match (const_env SUCCESS) break_table (example_line "zzz".toList)
    fresh_globals ⟨"zzz".toList⟩ [] (by decide)
    (by
      intro d hd
      simp only [break_table, List.mem_cons, List.mem_singleton, List.not_mem_nil,
        or_false] at hd
      rcases hd with hd | hd <;> subst hd <;>
        simp [NameOrAliasMatch, cmd_break, sentinel, phpdbg_command_t.name,
          phpdbg_command_t.alias_, NUL])

/-- C7: on a Line with exactly one token that selects a descriptor, the
handler of that descriptor is invoked exactly once, with the Empty Param and
the Line as it was given; nothing of the child table enters the result, and
the return value is the handler's. The session slots are set to the
descriptor and Empty before the call unless the session is initializing. -/
theorem do_cmd_single_token {σ : Type} (env : phpdbg_env σ)
    (table : List phpdbg_command_t) (input : phpdbg_input_t) (g : phpdbg_globals σ)
    (arg0 : phpdbg_arg_t) (command : phpdbg_command_t) (h : Nat)
    (hargv : input.argv = [arg0])
    (hsel : phpdbg_select table arg0 = some (command, h)) :
    let g1 : phpdbg_globals σ :=
      if g.flags &&& env.PHPDBG_IS_INITIALIZING = 0 then
        { g with lcmd := some command, lparam := phpdbg_param_t.EMPTY_PARAM }
      else g
    let out := env.handler h phpdbg_param_t.EMPTY_PARAM input g1
    (phpdbg_do_cmd env table input g).rc = out.1 ∧
    (phpdbg_do_cmd env table input g).globals = out.2 ∧
    (phpdbg_do_cmd env table input g).input = input ∧
    (phpdbg_do_cmd env table input g).calls =
      [{ command := command, param := phpdbg_param_t.EMPTY_PARAM, input := input,
         rc := out.1 }] := by
  have he := input_eta input _ hargv
  rw [do_cmd_eq_argv env table input g _ hargv]
  simp only [phpdbg_do_cmd_argv, hsel, phpdbg_input_t.argc, List.length_singleton,
    gt_iff_lt, lt_self_iff_false, if_false, phpdbg_do_cmd_invoke, List.nil_append, he]
  exact ⟨trivial, trivial, trivial, trivial⟩

/-- Witness for C7: `break` alone runs the handler of `break` (handler 1) once
with Empty, although `break` declares children. -/
theorem do_cmd_single_token_witness :
    (phpdbg_do_cmd (const_env SUCCESS) break_table
      (example_line "break".toList) fresh_globals).rc = SUCCESS ∧
    (phpdbg_do_cmd (const_env SUCCESS) break_table
      (example_line "break".toList) fresh_globals).calls =
      [{ command := cmd_break, param := phpdbg_param_t.EMPTY_PARAM,
         input := example_line "break".toList, rc := SUCCESS }] := by
  have key := do_cmd_single_token (const_env SUCCESS) break_table
    (example_line "break".toList) fresh_globals ⟨"break".toList⟩ cmd_break 1
    (by decide) rfl
  exact ⟨key.1, key.2.2.2⟩

/-! ## Dispatcher: the Param handed to the handler (C2) -/

theorem do_cmd_invoke_param {σ : Type} (env : phpdbg_env σ) (command : phpdbg_command_t)
    (h : Nat) (input : phpdbg_input_t) (arg0 : phpdbg_arg_t) (g : phpdbg_globals σ)
    (calls : List handler_call) (hargc : input.argc > 1) :
    ∃ e, (phpdbg_do_cmd_invoke env command h input arg0 g calls).calls = calls ++ [e] ∧
      e.command = command ∧
      e.param = phpdbg_parse_param env.utils (phpdbg_trim (input.string.drop arg0.length))
        (phpdbg_trim (input.string.drop arg0.length)).length := by
  refine ⟨_, rfl, rfl, ?_⟩
  simp [hargc, phpdbg_residual, phpdbg_input_t.length]

/-- C2, evaluated where it fails: the line `"b" 10` tokenizes to `b` and `10`
and selects `break` by its alias; no child matches `10`, so the handler of
`break` (handler 1) runs. The text after Token[0] is ` 10`, which classifies as
Numeric(10), and that is what the bare-word line `b 10` passes; for the quoted
spelling the dispatcher cuts `argv[0]->length` = 1 character off the raw text
and passes Str(`b" 10`). -/
theorem do_cmd_quoted_command_param :
    phpdbg_read_input EXAMPLE_MAX_CMD "\"b\" 10".toList =
      some (example_line "\"b\" 10".toList) ∧
    (example_line "\"b\" 10".toList).argv = [⟨"b".toList⟩, ⟨"10".toList⟩] ∧
    call_summary (phpdbg_do_cmd (const_env SUCCESS) break_table
      (example_line "\"b\" 10".toList) fresh_globals).calls
      = [(some 1, phpdbg_param_t.STR_PARAM "b\" 10".toList 5)] ∧
    phpdbg_parse_param (spec_utils id) (phpdbg_trim " 10".toList)
      (phpdbg_trim " 10".toList).length = phpdbg_param_t.NUMERIC_PARAM 10 ∧
    call_summary (phpdbg_do_cmd (const_env SUCCESS) break_table
      (example_line "b 10".toList) fresh_globals).calls
      = [(some 1, phpdbg_param_t.NUMERIC_PARAM 10)] := by
  refine ⟨by decide, by decide, by decide, by decide, by decide⟩

/-! ## Dispatcher: session memory (C4, C5) -/

theorem invoke_session {σ : Type} (env : phpdbg_env σ) (hkeep : HandlersKeepSession env)
    (command : phpdbg_command_t) (h : Nat) (input : phpdbg_input_t) (arg0 : phpdbg_arg_t)
    (g : phpdbg_globals σ) (calls : List handler_call) :
    ∃ e, (phpdbg_do_cmd_invoke env command h input arg0 g calls).calls = calls ++ [e] ∧
      e.rc = (phpdbg_do_cmd_invoke env command h input arg0 g calls).rc ∧
      e.command = command ∧
      ((phpdbg_do_cmd_invoke env command h input arg0 g calls).globals.flags &&&
          env.PHPDBG_IS_INITIALIZING = 0 ↔ g.flags &&& env.PHPDBG_IS_INITIALIZING = 0) ∧
      (g.flags &&& env.PHPDBG_IS_INITIALIZING = 0 →
        (phpdbg_do_cmd_invoke env command h input arg0 g calls).globals.lcmd = some command ∧
        (phpdbg_do_cmd_invoke env command h input arg0 g calls).globals.lparam = e.param) ∧
      (g.flags &&& env.PHPDBG_IS_INITIALIZING ≠ 0 →
        (phpdbg_do_cmd_invoke env command h input arg0 g calls).globals.lcmd = g.lcmd ∧
        (phpdbg_do_cmd_invoke env command h input arg0 g calls).globals.lparam = g.lparam) := by
  refine ⟨_, rfl, rfl, rfl, ?_, ?_, ?_⟩
  · simp only [phpdbg_do_cmd_invoke]
    rw [(hkeep _ _ _ _).1]
    split <;> rfl
  · intro hinit
    simp only [phpdbg_do_cmd_invoke, hinit, if_true]
    exact ⟨(hkeep _ _ _ _).2.1, (hkeep _ _ _ _).2.2⟩
  · intro hinit
    simp only [phpdbg_do_cmd_invoke, hinit, if_false]
    exact ⟨(hkeep _ _ _ _).2.1, (hkeep _ _ _ _).2.2⟩

theorem do_cmd_argv_session {σ : Type} (env : phpdbg_env σ) (hkeep : HandlersKeepSession env)
    (argv : List phpdbg_arg_t) :
    ∀ (string : List Char) (table : List phpdbg_command_t) (g : phpdbg_globals σ),
      SessionOutcome env g (phpdbg_do_cmd_argv env argv string table g) := by
  induction argv with
  | nil =>
    intro string table g
    exact ⟨Iff.rfl, Or.inl ⟨rfl, rfl, rfl⟩⟩
  | cons arg0 rest ih =>
    intro string table g
    have hinv : ∀ (g0 : phpdbg_globals σ) (calls : List handler_call),
        (g0.flags &&& env.PHPDBG_IS_INITIALIZING = 0 ↔
          g.flags &&& env.PHPDBG_IS_INITIALIZING = 0) →
        (g.flags &&& env.PHPDBG_IS_INITIALIZING ≠ 0 →
          g0.lcmd = g.lcmd ∧ g0.lparam = g.lparam) →
        ∀ (command : phpdbg_command_t) (h : Nat),
        SessionOutcome env g (phpdbg_do_cmd_invoke env command h
          { string := string, argv := arg0 :: rest } arg0 g0 calls) := by
      intro g0 calls hfl hinit command h
      obtain ⟨e, hcalls, herc, hecmd, hflags, hset, hkept⟩ :=
        invoke_session env hkeep command h { string := string, argv := arg0 :: rest }
          arg0 g0 calls
      refine ⟨hflags.trans hfl, Or.inr ⟨calls, e, hcalls, herc, ?_, ?_⟩⟩
      · intro hz
        rw [hecmd]
        exact hset (hfl.2 hz)
      · intro hnz
        have h1 := hkept (fun hz => hnz (hfl.1 hz))
        have h2 := hinit hnz
        exact ⟨h1.1.trans h2.1, h1.2.trans h2.2⟩
    simp only [phpdbg_do_cmd_argv]
    cases hsel : phpdbg_select table arg0 with
    | none => exact ⟨Iff.rfl, Or.inl ⟨rfl, rfl, rfl⟩⟩
    | some ch =>
      obtain ⟨command, h⟩ := ch
      simp only []
      split
      · cases hsubs : command.subs with
        | none => exact hinv g [] Iff.rfl (fun _ => ⟨rfl, rfl⟩) command h
        | some subs =>
          simp only []
          obtain ⟨hfl, hcase⟩ := ih (phpdbg_residual string arg0) subs g
          split
          · rename_i hok
            refine ⟨hfl, ?_⟩
            rcases hcase with ⟨-, hfail, -⟩ | ⟨pre, e, hcalls, herc, hset, hkept⟩
            · rw [hok] at hfail
              exact absurd hfail (by decide)
            · exact Or.inr ⟨pre, e, hcalls, herc.trans hok, hset, hkept⟩
          · refine hinv _ _ hfl ?_ command h
            intro hnz
            rcases hcase with ⟨-, -, hsame⟩ | ⟨pre, e, -, -, -, hkept⟩
            · rw [hsame]; exact ⟨rfl, rfl⟩
            · exact hkept hnz
      · exact hinv g [] Iff.rfl (fun _ => ⟨rfl, rfl⟩) command h

/-- C5: outside initialization and with handlers that do not write the
session slots, a successful `phpdbg_do_cmd` leaves as last command the
descriptor of the handler that returned success (the last one invoked, a
child when resolution succeeded in a sub-table) and as last parameter the
Param passed to that handler. -/
theorem do_cmd_success_session {σ : Type} (env : phpdbg_env σ)
    (table : List phpdbg_command_t) (input : phpdbg_input_t) (g : phpdbg_globals σ)
    (hkeep : HandlersKeepSession env)
    (hinit : g.flags &&& env.PHPDBG_IS_INITIALIZING = 0)
    (hok : (phpdbg_do_cmd env table input g).rc = SUCCESS) :
    ∃ pre e, (phpdbg_do_cmd env table input g).calls = pre ++ [e] ∧
      e.rc = SUCCESS ∧
      (phpdbg_do_cmd env table input g).globals.lcmd = some e.command ∧
      (phpdbg_do_cmd env table input g).globals.lparam = e.param := by
  obtain ⟨-, hcase⟩ := do_cmd_argv_session env hkeep input.argv input.string table g
  rcases hcase with ⟨-, hfail, -⟩ | ⟨pre, e, hcalls, herc, hset, -⟩
  · have hok2 : (phpdbg_do_cmd_argv env input.argv input.string table g).rc = SUCCESS := hok
    rw [hok2] at hfail
    exact absurd hfail (by decide)
  · exact ⟨pre, e, hcalls, herc.trans hok, hset hinit⟩

theorem const_env_keeps (rc : Int) : HandlersKeepSession (const_env rc) :=
  fun _ _ _ _ => ⟨Iff.rfl, rfl, rfl⟩

/-- Witness for C5: after `break line 10` the session remembers the child
`line` and Numeric(10). -/
theorem do_cmd_success_session_witness :
    ∃ pre e, (phpdbg_do_cmd (const_env SUCCESS) break_table
        (example_line "break line 10".toList) fresh_globals).calls = pre ++ [e] ∧
      e.rc = SUCCESS ∧
      (phpdbg_do_cmd (const_env SUCCESS) break_table
        (example_line "break line 10".toList) fresh_globals).globals.lcmd
        = some e.command ∧
      (phpdbg_do_cmd (const_env SUCCESS) break_table
        (example_line "break line 10".toList) fresh_globals).globals.lparam
        = e.param :=
  do_cmd_success_session (const_env SUCCESS) break_table
    (example_line "break line 10".toList) fresh_globals
    (const_env_keeps SUCCESS) (by decide) (by decide)

theorem example_lines_tokenize :
    phpdbg_read_input EXAMPLE_MAX_CMD "break line 10".toList =
      some { string := "break line 10".toList,
             argv := [⟨"break".toList⟩, ⟨"line".toList⟩, ⟨"10".toList⟩] } ∧
    example_line "break line 10".toList =
      { string := "break line 10".toList,
        argv := [⟨"break".toList⟩, ⟨"line".toList⟩, ⟨"10".toList⟩] } ∧
    phpdbg_read_input EXAMPLE_MAX_CMD "break".toList = some (example_line "break".toList) ∧
    example_line "break".toList = { string := "break".toList, argv := [⟨"break".toList⟩] } ∧
    phpdbg_read_input EXAMPLE_MAX_CMD "zzz".toList = some (example_line "zzz".toList) ∧
    example_line "zzz".toList = { string := "zzz".toList, argv := [⟨"zzz".toList⟩] } ∧
    phpdbg_read_input EXAMPLE_MAX_CMD "b 10".toList = some (example_line "b 10".toList) ∧
    example_line "b 10".toList =
      { string := "b 10".toList, argv := [⟨"b".toList⟩, ⟨"10".toList⟩] } := by
  refine ⟨by decide, by decide, by decide, by decide, by decide, by decide, by decide,
    by decide⟩

/-! ## Tokenizer: the view simulates the frame -/

theorem estrndup_buf_zero (b : Nat → Char) : estrndup_buf b 0 = [] := rfl

theorem estrndup_buf_write_same (b : Nat → Char) (l : Nat) (c : Char) :
    estrndup_buf (writeAt b l c) l = estrndup_buf b l := by
  unfold estrndup_buf writeAt
  apply List.map_congr_left
  intro j hj
  have hlt : j < l := List.mem_range.1 hj
  simp [Nat.ne_of_lt hlt]

theorem estrndup_buf_push (b : Nat → Char) (l : Nat) (c : Char) :
    estrndup_buf (writeAt b l c) (l + 1) = estrndup_buf b l ++ [c] := by
  have h := estrndup_buf_write_same b l c
  unfold estrndup_buf at *
  rw [List.range_succ, List.map_append, h]
  simp [writeAt]

theorem estrndup_buf_replace_last (b : Nat → Char) (l : Nat) (c : Char) :
    estrndup_buf (writeAt b (l - 1) c) l =
      if estrndup_buf b l = [] then [] else (estrndup_buf b l).dropLast ++ [c] := by
  cases l with
  | zero => simp [estrndup_buf]
  | succ k =>
    have h1 := estrndup_buf_push b k c
    have h2 : estrndup_buf b (k + 1) = estrndup_buf b k ++ [b k] := by
      unfold estrndup_buf
      rw [List.range_succ, List.map_append]
      rfl
    simp only [Nat.add_sub_cancel]
    rw [h1, h2]
    simp

theorem store_eq_some (cap : Nat) (b : Nat → Char) (i : Nat) (c : Char) (hi : i < cap) :
    store cap b i c = some (writeAt b i c) := by
  simp [store, hi]

theorem store_eq_none (cap : Nat) (b : Nat → Char) (i : Nat) (c : Char) (hi : ¬ i < cap) :
    store cap b i c = none := by
  simp [store, hi]

theorem push_eq_some (cap : Nat) (c : Char) (f : argv_frame) (hl : f.l < cap) :
    push cap c f = some { f with b := writeAt f.b f.l c, l := f.l + 1 } := by
  simp [push, store_eq_some cap f.b f.l c hl]

theorem push_eq_none (cap : Nat) (c : Char) (f : argv_frame) (hl : ¬ f.l < cap) :
    push cap c f = none := by
  simp [push, store_eq_none cap f.b f.l c hl]

theorem reset_eq_some (cap : Nat) (f : argv_frame) (hl : f.l < cap) :
    RESET_STATE cap f =
      some { state := states.IN_BETWEEN, b := writeAt f.b f.l NUL, l := 0,
             argv := f.argv ++ [⟨estrndup_buf (writeAt f.b f.l NUL) f.l⟩] } := by
  simp [RESET_STATE, store_eq_some cap f.b f.l NUL hl]

theorem reset_eq_none (cap : Nat) (f : argv_frame) (hl : ¬ f.l < cap) :
    RESET_STATE cap f = none := by
  simp [RESET_STATE, store_eq_none cap f.b f.l NUL hl]

theorem push_view (cap : Nat) (c : Char) (f f1 : argv_frame) (h : push cap c f = some f1) :
    f1.view = { state := f.state, acc := f.view.acc ++ [c], argv := f.argv } := by
  by_cases hl : f.l < cap
  · rw [push_eq_some cap c f hl] at h
    cases h
    simp [argv_frame.view, estrndup_buf_push]
  · rw [push_eq_none cap c f hl] at h
    cases h

theorem reset_view (cap : Nat) (f f1 : argv_frame) (h : RESET_STATE cap f = some f1) :
    f1.view = { state := states.IN_BETWEEN, acc := [], argv := f.argv ++ [⟨f.view.acc⟩] } := by
  by_cases hl : f.l < cap
  · rw [reset_eq_some cap f hl] at h
    cases h
    simp [argv_frame.view, estrndup_buf_write_same, estrndup_buf_zero]
  · rw [reset_eq_none cap f hl] at h
    cases h

theorem step_view (cap : Nat) (prev : Option Char) (c : Char) (f f1 : argv_frame)
    (h : phpdbg_read_argv_step cap prev c f = some f1) :
    f1.view = view_step prev c f.view := by
  unfold phpdbg_read_argv_step at h
  cases hs : f.state <;> rw [hs] at h <;> simp only [] at h
  · by_cases h1 : isspace c = true
    · simp only [h1, if_true, Option.some.injEq] at h
      subst h
      simp [view_step, argv_frame.view, hs, h1]
    · by_cases h2 : c = QUOTE
      · have hq : isspace QUOTE = false := by decide
        subst h2
        simp only [hq, Bool.false_eq_true, if_false, if_true, Option.some.injEq] at h
        subst h
        simp [view_step, argv_frame.view, hs, hq]
      · simp only [h1, h2, if_false] at h
        rw [push_view cap c _ f1 h]
        simp [view_step, argv_frame.view, hs, h1, h2]
  · by_cases h1 : isspace c = true
    · simp only [h1, if_true] at h
      rw [reset_view cap f f1 h]
      simp [view_step, argv_frame.view, hs, h1]
    · simp only [h1, if_false] at h
      rw [push_view cap c f f1 h]
      simp [view_step, argv_frame.view, hs, h1]
  · by_cases h2 : c = QUOTE
    · subst h2
      simp only [if_true] at h
      cases prev with
      | none => simp at h
      | some before =>
        simp only [] at h
        by_cases h3 : before = BACKSLASH
        · subst h3
          simp only [if_true] at h
          by_cases h4 : f.l = 0
          · simp [h4] at h
          · simp only [h4, if_false] at h
            by_cases h5 : f.l - 1 < cap
            · rw [store_eq_some cap f.b (f.l - 1) QUOTE h5] at h
              simp only [Option.some.injEq] at h
              subst h
              simp [view_step, argv_frame.view, hs, estrndup_buf_replace_last]
            · rw [store_eq_none cap f.b (f.l - 1) QUOTE h5] at h
              cases h
        · simp only [h3, if_false] at h
          rw [reset_view cap f f1 h]
          simp [view_step, argv_frame.view, hs, h3]
    · simp only [h2, if_false] at h
      rw [push_view cap c f f1 h]
      simp [view_step, argv_frame.view, hs, h2]

theorem loop_view (cap : Nat) (xs : List Char) :
    ∀ (prev : Option Char) (f f1 : argv_frame),
      phpdbg_read_argv_loop cap prev xs f = some f1 →
      f1.view = view_loop prev xs f.view := by
  induction xs with
  | nil =>
    intro prev f f1 h
    simp only [phpdbg_read_argv_loop, Option.some.injEq] at h
    subst h
    rfl
  | cons c cs ih =>
    intro prev f f1 h
    simp only [phpdbg_read_argv_loop] at h
    cases hstep : phpdbg_read_argv_step cap prev c f with
    | none => rw [hstep] at h; cases h
    | some f2 =>
      rw [hstep] at h
      simp only [] at h
      rw [ih (some c) f2 f1 h, step_view cap prev c f f2 hstep]
      rfl

theorem finish_view (cap : Nat) (f : argv_frame) (r : read_argv_result)
    (h : phpdbg_read_argv_finish cap f = some r) : r = view_finish f.view := by
  unfold phpdbg_read_argv_finish at h
  unfold view_finish
  cases hs : f.state <;> rw [hs] at h <;> simp only [] at h
  · cases h
    simp [argv_frame.view, hs]
  · cases hr : RESET_STATE cap f with
    | none => rw [hr] at h; cases h
    | some f2 =>
      rw [hr] at h
      simp only [Option.some.injEq] at h
      subst h
      have hv := reset_view cap f f2 hr
      have ha : f2.argv = f.argv ++ [⟨f.view.acc⟩] := by
        have := congrArg scan_view.argv hv
        simpa [argv_frame.view] using this
      simp [argv_frame.view, hs, ha]
  · cases h
    simp [argv_frame.view, hs]

theorem read_argv_sound (cap : Nat) (buffer : List Char) (r : read_argv_result)
    (h : phpdbg_read_argv cap buffer = some r) :
    r = view_finish (view_loop none buffer
        { state := states.IN_BETWEEN, acc := [], argv := [] }) := by
  unfold phpdbg_read_argv at h
  cases hl : phpdbg_read_argv_loop cap none buffer argv_frame.init with
  | none => rw [hl] at h; cases h
  | some f =>
    rw [hl] at h
    simp only [] at h
    rw [finish_view cap f r h, loop_view cap buffer none argv_frame.init f hl]
    rfl

/-! ## Tokenizer: accesses in bounds -/

theorem push_some (cap : Nat) (c : Char) (f f1 : argv_frame) (h : push cap c f = some f1) :
    f.l < cap ∧ f1 = { f with b := writeAt f.b f.l c, l := f.l + 1 } := by
  by_cases hl : f.l < cap
  · rw [push_eq_some cap c f hl] at h
    exact ⟨hl, (Option.some.inj h).symm⟩
  · rw [push_eq_none cap c f hl] at h
    cases h

theorem reset_some (cap : Nat) (f f1 : argv_frame) (h : RESET_STATE cap f = some f1) :
    f.l < cap ∧ f1.state = states.IN_BETWEEN ∧ f1.l = 0 := by
  by_cases hl : f.l < cap
  · rw [reset_eq_some cap f hl] at h
    cases h
    exact ⟨hl, rfl, rfl⟩
  · rw [reset_eq_none cap f hl] at h
    cases h

theorem step_index_inv (cap : Nat) (prev : Option Char) (c : Char) (f f1 : argv_frame)
    (n : Nat) (h : phpdbg_read_argv_step cap prev c f = some f1) (hinv : IndexInv prev f n) :
    IndexInv (some c) f1 (n + 1) := by
  obtain ⟨hl, hstr⟩ := hinv
  have hqb : QUOTE ≠ BACKSLASH := by decide
  have hsome : (some c : Option Char) ≠ none := by simp
  unfold phpdbg_read_argv_step at h
  unfold IndexInv
  cases hs : f.state <;> rw [hs] at h <;> simp only [] at h
  · by_cases h1 : isspace c = true
    · simp only [h1, if_true, Option.some.injEq] at h
      subst h
      exact ⟨Nat.le_succ_of_le hl, fun hx => by rw [hs] at hx; cases hx⟩
    · by_cases h2 : c = QUOTE
      · have hq : isspace QUOTE = false := by decide
        subst h2
        simp only [hq, Bool.false_eq_true, if_false, if_true, Option.some.injEq] at h
        subst h
        exact ⟨Nat.le_succ_of_le hl, fun _ => ⟨Nat.succ_le_succ (Nat.zero_le n), hsome,
          fun hb => absurd (Option.some.inj hb) hqb⟩⟩
      · simp only [h1, h2, if_false] at h
        obtain ⟨-, hf1⟩ := push_some cap c _ f1 h
        subst hf1
        exact ⟨Nat.succ_le_succ hl, fun hx => by cases hx⟩
  · by_cases h1 : isspace c = true
    · simp only [h1, if_true] at h
      obtain ⟨-, hst, hl0⟩ := reset_some cap f f1 h
      exact ⟨by rw [hl0]; exact Nat.zero_le _, fun hx => by rw [hst] at hx; cases hx⟩
    · simp only [h1, if_false] at h
      obtain ⟨-, hf1⟩ := push_some cap c f f1 h
      subst hf1
      exact ⟨Nat.succ_le_succ hl, fun hx => by simp only [hs] at hx; cases hx⟩
  · by_cases h2 : c = QUOTE
    · subst h2
      simp only [if_true] at h
      cases prev with
      | none => simp at h
      | some before =>
        simp only [] at h
        by_cases h3 : before = BACKSLASH
        · subst h3
          simp only [if_true] at h
          by_cases h4 : f.l = 0
          · simp [h4] at h
          · simp only [h4, if_false] at h
            by_cases h5 : f.l - 1 < cap
            · rw [store_eq_some cap f.b (f.l - 1) QUOTE h5] at h
              simp only [Option.some.injEq] at h
              subst h
              exact ⟨Nat.le_succ_of_le hl, fun _ => ⟨Nat.succ_le_succ (Nat.zero_le n), hsome,
                fun hb => absurd (Option.some.inj hb) hqb⟩⟩
            · rw [store_eq_none cap f.b (f.l - 1) QUOTE h5] at h
              cases h
        · simp only [h3, if_false] at h
          obtain ⟨-, hst, hl0⟩ := reset_some cap f f1 h
          exact ⟨by rw [hl0]; exact Nat.zero_le _, fun hx => by rw [hst] at hx; cases hx⟩
    · simp only [h2, if_false] at h
      obtain ⟨-, hf1⟩ := push_some cap c f f1 h
      subst hf1
      exact ⟨Nat.succ_le_succ hl, fun _ => ⟨Nat.succ_le_succ (Nat.zero_le n), hsome,
        fun _ => Nat.succ_le_succ (Nat.zero_le _)⟩⟩

theorem step_ok (cap : Nat) (prev : Option Char) (c : Char) (f : argv_frame) (n : Nat)
    (hinv : IndexInv prev f n) (hn : n < cap) :
    ∃ f1, phpdbg_read_argv_step cap prev c f = some f1 := by
  obtain ⟨hl, hstr⟩ := hinv
  have hlt : f.l < cap := Nat.lt_of_le_of_lt hl hn
  unfold phpdbg_read_argv_step
  cases hs : f.state <;> simp only []
  · by_cases h1 : isspace c = true
    · exact ⟨f, by simp [h1]⟩
    · by_cases h2 : c = QUOTE
      · have hq : isspace QUOTE = false := by decide
        subst h2
        exact ⟨{ f with state := states.IN_STRING }, by simp [hq]⟩
      · simp only [h1, h2, if_false]
        exact ⟨_, push_eq_some cap c _ hlt⟩
  · by_cases h1 : isspace c = true
    · simp only [h1, if_true]
      exact ⟨_, reset_eq_some cap f hlt⟩
    · simp only [h1, if_false]
      exact ⟨_, push_eq_some cap c f hlt⟩
  · obtain ⟨-, hprev, hback⟩ := hstr hs
    by_cases h2 : c = QUOTE
    · subst h2
      simp only [if_true]
      cases prev with
      | none => exact absurd rfl hprev
      | some before =>
        simp only []
        by_cases h3 : before = BACKSLASH
        · subst h3
          have h1l : 1 ≤ f.l := hback rfl
          have h4 : f.l ≠ 0 := by omega
          have h5 : f.l - 1 < cap := by omega
          simp only [if_true, h4, if_false, store_eq_some cap f.b (f.l - 1) QUOTE h5]
          exact ⟨_, rfl⟩
        · simp only [h3, if_false]
          exact ⟨_, reset_eq_some cap f hlt⟩
    · simp only [h2, if_false]
      exact ⟨_, push_eq_some cap c f hlt⟩

theorem loop_index_inv (cap : Nat) (xs : List Char) :
    ∀ (prev : Option Char) (f f1 : argv_frame) (n : Nat),
      phpdbg_read_argv_loop cap prev xs f = some f1 → IndexInv prev f n →
      IndexInv (lastOr prev xs) f1 (n + xs.length) := by
  induction xs with
  | nil =>
    intro prev f f1 n h hinv
    simp only [phpdbg_read_argv_loop, Option.some.injEq] at h
    subst h
    exact hinv
  | cons c cs ih =>
    intro prev f f1 n h hinv
    simp only [phpdbg_read_argv_loop] at h
    cases hstep : phpdbg_read_argv_step cap prev c f with
    | none => rw [hstep] at h; cases h
    | some f2 =>
      rw [hstep] at h
      simp only [] at h
      have h2 := ih (some c) f2 f1 (n + 1) h (step_index_inv cap prev c f f2 n hstep hinv)
      simp only [lastOr, List.length_cons]
      rw [show n + (cs.length + 1) = n + 1 + cs.length by omega]
      exact h2

theorem loop_ok (cap : Nat) (xs : List Char) :
    ∀ (prev : Option Char) (f : argv_frame) (n : Nat),
      IndexInv prev f n → n + xs.length ≤ cap →
      ∃ f1, phpdbg_read_argv_loop cap prev xs f = some f1 := by
  induction xs with
  | nil => intro prev f n _ _; exact ⟨f, rfl⟩
  | cons c cs ih =>
    intro prev f n hinv hn
    simp only [List.length_cons] at hn
    obtain ⟨f2, hstep⟩ := step_ok cap prev c f n hinv (by omega)
    obtain ⟨f1, hloop⟩ := ih (some c) f2 (n + 1)
      (step_index_inv cap prev c f f2 n hstep hinv) (by omega)
    refine ⟨f1, ?_⟩
    simp only [phpdbg_read_argv_loop, hstep]
    exact hloop

theorem finish_ok (cap : Nat) (prev : Option Char) (f : argv_frame) (n : Nat)
    (hinv : IndexInv prev f n) (hn : n < cap) :
    ∃ r, phpdbg_read_argv_finish cap f = some r := by
  have hlt : f.l < cap := Nat.lt_of_le_of_lt hinv.1 hn
  unfold phpdbg_read_argv_finish
  cases hs : f.state <;> simp only []
  · exact ⟨_, rfl⟩
  · rw [reset_eq_some cap f hlt]
    exact ⟨_, rfl⟩
  · exact ⟨_, rfl⟩

theorem init_index_inv : IndexInv none argv_frame.init 0 :=
  ⟨Nat.le_refl 0, fun h => by cases h⟩

theorem read_argv_ok (cap : Nat) (buffer : List Char) (hlen : buffer.length < cap) :
    ∃ r, phpdbg_read_argv cap buffer = some r := by
  obtain ⟨f, hloop⟩ := loop_ok cap buffer none argv_frame.init 0 init_index_inv (by omega)
  have hinv := loop_index_inv cap buffer none argv_frame.init f 0 hloop init_index_inv
  obtain ⟨r, hr⟩ := finish_ok cap _ f _ hinv (by omega)
  refine ⟨r, ?_⟩
  unfold phpdbg_read_argv
  rw [hloop]
  exact hr

theorem read_argv_eq_view (cap : Nat) (buffer : List Char) (hlen : buffer.length < cap) :
    phpdbg_read_argv cap buffer =
      some (view_finish (view_loop none buffer
        { state := states.IN_BETWEEN, acc := [], argv := [] })) := by
  obtain ⟨r, hr⟩ := read_argv_ok cap buffer hlen
  rw [hr, read_argv_sound cap buffer r hr]

theorem loop_append (cap : Nat) (xs ys : List Char) :
    ∀ (prev : Option Char) (f : argv_frame),
      phpdbg_read_argv_loop cap prev (xs ++ ys) f =
        match phpdbg_read_argv_loop cap prev xs f with
        | none => none
        | some f1 => phpdbg_read_argv_loop cap (lastOr prev xs) ys f1 := by
  induction xs with
  | nil => intro prev f; rfl
  | cons c cs ih =>
    intro prev f
    simp only [List.cons_append, phpdbg_read_argv_loop, lastOr]
    cases hstep : phpdbg_read_argv_step cap prev c f with
    | none => rfl
    | some f2 => exact ih (some c) f2

theorem step_plain_char (cap : Nat) (prev : Option Char) (a : Char) (f : argv_frame)
    (hsp : isspace a = false) (hq : a ≠ QUOTE) :
    (f.l < cap → ∃ f1, phpdbg_read_argv_step cap prev a f = some f1 ∧ f1.l = f.l + 1) ∧
    (¬ f.l < cap → phpdbg_read_argv_step cap prev a f = none) := by
  unfold phpdbg_read_argv_step
  cases hs : f.state <;> simp only [hsp, hq, Bool.false_eq_true, if_false]
  · exact ⟨fun hl => ⟨_, push_eq_some cap a _ hl, rfl⟩, fun hl => push_eq_none cap a _ hl⟩
  · exact ⟨fun hl => ⟨_, push_eq_some cap a _ hl, rfl⟩, fun hl => push_eq_none cap a _ hl⟩
  · exact ⟨fun hl => ⟨_, push_eq_some cap a _ hl, rfl⟩, fun hl => push_eq_none cap a _ hl⟩

theorem run_overflow (cap : Nat) (a : Char) (hsp : isspace a = false) (hq : a ≠ QUOTE)
    (rest : List Char) :
    ∀ (k : Nat) (prev : Option Char) (f : argv_frame), 0 < k → cap < f.l + k →
      phpdbg_read_argv_loop cap prev (List.replicate k a ++ rest) f = none := by
  intro k
  induction k with
  | zero => intro prev f hk; omega
  | succ k ih =>
    intro prev f _ hcap
    simp only [List.replicate_succ, List.cons_append, phpdbg_read_argv_loop]
    by_cases hl : f.l < cap
    · obtain ⟨f1, hstep, hl1⟩ := (step_plain_char cap prev a f hsp hq).1 hl
      rw [hstep]
      simp only []
      exact ih (some a) f1 (by omega) (by omega)
    · rw [(step_plain_char cap prev a f hsp hq).2 hl]

theorem read_argv_overflow (cap : Nat) (a : Char) (hsp : isspace a = false) (hq : a ≠ QUOTE)
    (pre rest : List Char) :
    phpdbg_read_argv cap (pre ++ (List.replicate (cap + 1) a ++ rest)) = none := by
  unfold phpdbg_read_argv
  rw [loop_append]
  cases hpre : phpdbg_read_argv_loop cap none pre argv_frame.init with
  | none => rfl
  | some f1 =>
    simp only []
    rw [run_overflow cap a hsp hq rest (cap + 1) _ f1 (by omega) (by omega)]

/-! ## Tokenizer: lines without quotes (C8) -/

theorem view_words (xs : List Char) (hq : QUOTE ∉ xs) :
    ∀ (prev : Option Char) (out : List phpdbg_arg_t),
      view_finish (view_loop prev xs { state := states.IN_BETWEEN, acc := [], argv := out }) =
        { argv := out ++ (split_words xs).map phpdbg_arg_t.mk, malformed := false } ∧
      ∀ acc : List Char,
        view_finish (view_loop prev xs { state := states.IN_WORD, acc := acc, argv := out }) =
          { argv := out ++ (words_after acc (xs.splitOnP isspace)).map phpdbg_arg_t.mk,
            malformed := false } := by
  induction xs with
  | nil =>
    intro prev out
    simp [view_loop, view_finish, split_words, words_after, List.splitOnP_nil]
  | cons c cs ih =>
    have hc : c ≠ QUOTE := fun h => hq (h ▸ List.mem_cons_self c cs)
    have hcs : QUOTE ∉ cs := fun h => hq (List.mem_cons_of_mem c h)
    intro prev out
    by_cases hsp : isspace c = true
    · constructor
      · simp only [view_loop, view_step, hsp, if_true]
        rw [(ih hcs (some c) out).1]
        simp [split_words, List.splitOnP_cons, hsp]
      · intro acc
        simp only [view_loop, view_step, hsp, if_true]
        rw [(ih hcs (some c) (out ++ [phpdbg_arg_t.mk acc])).1]
        simp [split_words, words_after, List.splitOnP_cons, hsp]
    · cases hpieces : cs.splitOnP isspace with
      | nil => exact absurd hpieces (List.splitOnP_ne_nil _ cs)
      | cons first more =>
        constructor
        · simp only [view_loop, view_step, hsp, hc, if_false, Bool.false_eq_true,
            List.nil_append]
          rw [(ih hcs (some c) out).2 [c]]
          simp [split_words, words_after, List.splitOnP_cons, hsp, hpieces]
        · intro acc
          simp only [view_loop, view_step, hsp, if_false, Bool.false_eq_true]
          rw [(ih hcs (some c) out).2 (acc ++ [c])]
          simp [words_after, List.splitOnP_cons, hsp, hpieces]

theorem split_words_all_space (xs : List Char) (hall : ∀ c ∈ xs, isspace c = true) :
    split_words xs = [] := by
  induction xs with
  | nil => simp [split_words, List.splitOnP_nil]
  | cons c cs ih =>
    have hc : isspace c = true := hall c (List.mem_cons_self c cs)
    have hcs := ih (fun d hd => hall d (List.mem_cons_of_mem c hd))
    unfold split_words at *
    simpa [List.splitOnP_cons, hc] using hcs

/-- On a line without a double quote that is shorter than the buffer,
`phpdbg_read_argv` returns exactly the line split on white space with the
empty pieces dropped (the maximal runs of non-white-space characters, in
order), each token's length being the length of its run, and reports no
malformed input; an empty or all-white-space line yields no token. -/
theorem read_argv_unquoted (PHPDBG_MAX_CMD : Nat) (line : List Char) (hq : QUOTE ∉ line)
    (hlen : line.length < PHPDBG_MAX_CMD) :
    ∃ r, phpdbg_read_argv PHPDBG_MAX_CMD line = some r ∧
      r.strings = (line.splitOnP isspace).filter (fun w => decide (w ≠ [])) ∧
      r.argv.map phpdbg_arg_t.length =
        ((line.splitOnP isspace).filter (fun w => decide (w ≠ []))).map List.length ∧
      r.malformed = false ∧
      ((∀ c ∈ line, isspace c = true) → r.argc = 0) := by
  have key := (view_words line hq none []).1
  refine ⟨_, read_argv_eq_view PHPDBG_MAX_CMD line hlen, ?_, ?_, ?_, ?_⟩
  · rw [key]
    simp [read_argv_result.strings, Function.comp_def, split_words]
  · rw [key]
    simp [split_words, Function.comp_def, phpdbg_arg_t.length]
  · rw [key]
  · intro hall
    rw [key]
    simp [read_argv_result.argc, split_words_all_space line hall]

/-- C8, evaluated where it fails: the line of `PHPDBG_MAX_CMD + 1` letters
`a` contains no double quote and is one run of non-white-space characters, so
the claim promises it back as one token; the tokenizer writes its characters
to `b[0]`, `b[1]`, ... and the last write, `b[PHPDBG_MAX_CMD]`, is outside
`char b[PHPDBG_MAX_CMD]`. The line `foo bar` gives `foo` and `bar`. -/
theorem read_argv_unquoted_overflow (PHPDBG_MAX_CMD : Nat) :
    QUOTE ∉ List.replicate (PHPDBG_MAX_CMD + 1) (Char.ofNat 97) ∧
    phpdbg_read_argv PHPDBG_MAX_CMD (List.replicate (PHPDBG_MAX_CMD + 1) (Char.ofNat 97))
      = none ∧
    phpdbg_read_argv EXAMPLE_MAX_CMD "foo bar".toList =
      some { argv := [⟨"foo".toList⟩, ⟨"bar".toList⟩], malformed := false } := by
  refine ⟨?_, ?_, by decide⟩
  · intro h
    exact absurd (List.eq_of_mem_replicate h) (by decide)
  · have h := read_argv_overflow PHPDBG_MAX_CMD (Char.ofNat 97) (by decide) (by decide) [] []
    simpa using h

/-! ## Tokenizer: quoted spans (C9, C10) -/

theorem view_loop_append (xs ys : List Char) :
    ∀ (prev : Option Char) (v : scan_view),
      view_loop prev (xs ++ ys) v = view_loop (lastOr prev xs) ys (view_loop prev xs v) := by
  induction xs with
  | nil => intro prev v; rfl
  | cons c cs ih =>
    intro prev v
    simp only [List.cons_append, view_loop, lastOr]
    exact ih (some c) (view_step prev c v)

theorem lastOr_eq (q : List Char) :
    ∀ prev : Option Char,
      lastOr prev q = (match q.getLast? with | some x => some x | none => prev) := by
  induction q with
  | nil => intro prev; rfl
  | cons c cs ih =>
    intro prev
    simp only [lastOr]
    rw [ih (some c)]
    cases cs with
    | nil => rfl
    | cons d ds =>
      rw [List.getLast?_cons_cons]
      cases hl : (d :: ds).getLast? with
      | none => simp at hl
      | some x => rfl

theorem lastOr_ne_backslash (q : List Char) (prev : Option Char)
    (hprev : prev ≠ some BACKSLASH) (hq : q.getLast? ≠ some BACKSLASH) :
    lastOr prev q ≠ some BACKSLASH := by
  rw [lastOr_eq]
  cases hl : q.getLast? with
  | none => exact hprev
  | some x => rw [hl] at hq; exact hq

theorem view_word_run (w : List Char) (hw : ∀ c ∈ w, isspace c = false) :
    ∀ (prev : Option Char) (acc : List Char) (out : List phpdbg_arg_t),
      view_loop prev w { state := states.IN_WORD, acc := acc, argv := out } =
        { state := states.IN_WORD, acc := acc ++ w, argv := out } := by
  induction w with
  | nil => intro prev acc out; simp [view_loop]
  | cons c cs ih =>
    intro prev acc out
    have hc : isspace c = false := hw c (List.mem_cons_self c cs)
    simp only [view_loop, view_step, hc, Bool.false_eq_true, if_false]
    rw [ih (fun d hd => hw d (List.mem_cons_of_mem c hd))]
    simp

theorem view_string_run (q : List Char) (hq : QUOTE ∉ q) :
    ∀ (prev : Option Char) (acc : List Char) (out : List phpdbg_arg_t),
      view_loop prev q { state := states.IN_STRING, acc := acc, argv := out } =
        { state := states.IN_STRING, acc := acc ++ q, argv := out } := by
  induction q with
  | nil => intro prev acc out; simp [view_loop]
  | cons c cs ih =>
    intro prev acc out
    have hc : c ≠ QUOTE := fun h => hq (h ▸ List.mem_cons_self c cs)
    simp only [view_loop, view_step, hc, if_false]
    rw [ih (fun h => hq (List.mem_cons_of_mem c h))]
    simp

theorem view_enter_word (w : List Char) (hne : w ≠ []) (hq : QUOTE ∉ w)
    (hw : ∀ c ∈ w, isspace c = false) (prev : Option Char) (out : List phpdbg_arg_t) :
    view_loop prev w { state := states.IN_BETWEEN, acc := [], argv := out } =
      { state := states.IN_WORD, acc := w, argv := out } := by
  cases w with
  | nil => exact absurd rfl hne
  | cons c cs =>
    have hc : isspace c = false := hw c (List.mem_cons_self c cs)
    have hcq : c ≠ QUOTE := fun h => hq (h ▸ List.mem_cons_self c cs)
    simp only [view_loop, view_step, hc, hcq, Bool.false_eq_true, if_false, List.nil_append]
    rw [view_word_run cs (fun d hd => hw d (List.mem_cons_of_mem c hd))]
    simp

theorem view_close_quote (prev : Option Char) (hprev : prev ≠ some BACKSLASH)
    (acc : List Char) (out : List phpdbg_arg_t) :
    view_step prev QUOTE { state := states.IN_STRING, acc := acc, argv := out } =
      { state := states.IN_BETWEEN, acc := [], argv := out ++ [phpdbg_arg_t.mk acc] } := by
  simp [view_step, hprev]

/-- For a string `q` without a double quote that does not end in a backslash,
and non-empty words `w`, `w'` without quote or white space, the line
`w "q" w'`, when shorter than the buffer, tokenizes to exactly `w`, `q`, `w'`
with no malformed-input report; `q` is taken verbatim (white space and
backslashes kept) and an empty `q` gives an empty token. -/
theorem read_argv_quoted_span (PHPDBG_MAX_CMD : Nat) (w q w' : List Char)
    (hw : w ≠ []) (hwq : QUOTE ∉ w) (hws : ∀ c ∈ w, isspace c = false)
    (hw' : w' ≠ []) (hwq' : QUOTE ∉ w') (hws' : ∀ c ∈ w', isspace c = false)
    (hq : QUOTE ∉ q) (hqb : q.getLast? ≠ some BACKSLASH)
    (hlen : (w ++ [SPACE, QUOTE] ++ q ++ [QUOTE, SPACE] ++ w').length < PHPDBG_MAX_CMD) :
    phpdbg_read_argv PHPDBG_MAX_CMD (w ++ [SPACE, QUOTE] ++ q ++ [QUOTE, SPACE] ++ w') =
      some { argv := [⟨w⟩, ⟨q⟩, ⟨w'⟩], malformed := false } := by
  have hsp : isspace SPACE = true := by decide
  have hqs : isspace QUOTE = false := by decide
  have hprev : lastOr (some QUOTE) q ≠ some BACKSLASH :=
    lastOr_ne_backslash q (some QUOTE) (by decide) hqb
  rw [read_argv_eq_view PHPDBG_MAX_CMD _ hlen]
  congr 1
  simp only [List.append_assoc, List.cons_append, List.nil_append]
  rw [view_loop_append, view_enter_word w hw hwq hws]
  simp only [view_loop, view_step, hsp, hqs, if_true, Bool.false_eq_true, if_false]
  rw [view_loop_append, view_string_run q hq]
  simp only [view_loop, List.nil_append]
  rw [view_close_quote _ hprev]
  simp only [view_step, hsp, if_true]
  rw [view_enter_word w' hw' hwq' hws']
  simp [view_finish]

theorem replicate_getLast_ne (k : Nat) (a x : Char) (hne : a ≠ x) :
    (List.replicate k a).getLast? ≠ some x := by
  intro h
  have hmem : x ∈ List.replicate k a := List.mem_of_mem_getLast? h
  exact hne (List.eq_of_mem_replicate hmem).symm

theorem replicate_not_mem (k : Nat) (a x : Char) (hne : a ≠ x) :
    x ∉ List.replicate k a := by
  intro h
  exact hne (List.eq_of_mem_replicate h).symm

/-- C9, evaluated where it fails: with `w` = `x`, `w'` = `y` and `q` the
string of `PHPDBG_MAX_CMD + 1` letters `a` (no double quote, no final
backslash) the claim promises the tokens `x`, `q`, `y`; the tokenizer
accumulates `q` in `char b[PHPDBG_MAX_CMD]` without a bound check and writes
outside the array. The line `foo "bar baz" qux` gives `foo`, `bar baz`,
`qux`. -/
theorem read_argv_quoted_span_overflow (PHPDBG_MAX_CMD : Nat) :
    QUOTE ∉ List.replicate (PHPDBG_MAX_CMD + 1) (Char.ofNat 97) ∧
    (List.replicate (PHPDBG_MAX_CMD + 1) (Char.ofNat 97)).getLast? ≠ some BACKSLASH ∧
    phpdbg_read_argv PHPDBG_MAX_CMD
      ("x".toList ++ [SPACE, QUOTE] ++ List.replicate (PHPDBG_MAX_CMD + 1) (Char.ofNat 97)
        ++ [QUOTE, SPACE] ++ "y".toList) = none ∧
    phpdbg_read_argv EXAMPLE_MAX_CMD "foo \"bar baz\" qux".toList =
      some { argv := [⟨"foo".toList⟩, ⟨"bar baz".toList⟩, ⟨"qux".toList⟩],
             malformed := false } := by
  refine ⟨replicate_not_mem _ _ _ (by decide), replicate_getLast_ne _ _ _ (by decide), ?_,
    by decide⟩
  have h := read_argv_overflow PHPDBG_MAX_CMD (Char.ofNat 97) (by decide) (by decide)
    ("x".toList ++ [SPACE, QUOTE]) ([QUOTE, SPACE] ++ "y".toList)
  simpa [List.append_assoc] using h

theorem view_unquoted_inv (xs : List Char) (hq : QUOTE ∉ xs) :
    ∀ (prev : Option Char) (v : scan_view),
      ((v.state = states.IN_BETWEEN ∧ v.acc = []) ∨ v.state = states.IN_WORD) →
      (((view_loop prev xs v).state = states.IN_BETWEEN ∧ (view_loop prev xs v).acc = []) ∨
        (view_loop prev xs v).state = states.IN_WORD) := by
  induction xs with
  | nil => intro prev v hv; exact hv
  | cons c cs ih =>
    intro prev v hv
    have hc : c ≠ QUOTE := fun h => hq (h ▸ List.mem_cons_self c cs)
    simp only [view_loop]
    apply ih (fun h => hq (List.mem_cons_of_mem c h))
    rcases hv with ⟨hs, ha⟩ | hs
    · by_cases hsp : isspace c = true
      · left; simp [view_step, hs, hsp, ha]
      · right; simp [view_step, hs, hsp, hc]
    · by_cases hsp : isspace c = true
      · left; simp [view_step, hs, hsp]
      · right; simp [view_step, hs, hsp]

theorem view_after_space (p : List Char) (hq : QUOTE ∉ p) (s : Char) (hs : isspace s = true)
    (prev : Option Char) :
    view_step prev s
        (view_loop none p { state := states.IN_BETWEEN, acc := [], argv := [] }) =
      { state := states.IN_BETWEEN, acc := [],
        argv := (view_finish (view_loop none p
          { state := states.IN_BETWEEN, acc := [], argv := [] })).argv } := by
  have hinv := view_unquoted_inv p hq none
    { state := states.IN_BETWEEN, acc := [], argv := [] } (Or.inl ⟨rfl, rfl⟩)
  generalize view_loop none p { state := states.IN_BETWEEN, acc := [], argv := [] } = V
    at hinv ⊢
  obtain ⟨st, acc, out⟩ := V
  rcases hinv with ⟨h1, h2⟩ | h1
  · simp only at h1 h2
    subst h1; subst h2
    simp [view_step, hs, view_finish]
  · simp only at h1
    subst h1
    simp [view_step, hs, view_finish]

theorem view_prefix (p : List Char) (hq : QUOTE ∉ p)
    (hend : ∀ c, p.getLast? = some c → isspace c = true) :
    view_loop none p { state := states.IN_BETWEEN, acc := [], argv := [] } =
      { state := states.IN_BETWEEN, acc := [],
        argv := (view_finish (view_loop none p
          { state := states.IN_BETWEEN, acc := [], argv := [] })).argv } := by
  rcases List.eq_nil_or_concat p with hp | ⟨p', s, hp⟩
  · subst hp; rfl
  · rw [List.concat_eq_append] at hp
    subst hp
    have hs : isspace s = true := hend s (by simp)
    have hq' : QUOTE ∉ p' := fun h => hq (List.mem_append_left _ h)
    have h1 := view_after_space p' hq' s hs (lastOr none p')
    have hloop : view_loop none (p' ++ [s])
        { state := states.IN_BETWEEN, acc := [], argv := [] } =
        view_step (lastOr none p') s
          (view_loop none p' { state := states.IN_BETWEEN, acc := [], argv := [] }) := by
      rw [view_loop_append]
      rfl
    rw [hloop, h1]
    simp [view_finish]

/-- For strings `q1`, `q2` without a double quote, `q2` not ending in a
backslash, and a quote-free text `p` that is empty or ends in white space, the
line `p"q1\"q2"`, when shorter than the buffer, tokenizes to the tokens of `p`
followed by the one token `q1"q2`, with no malformed-input report: the escaped
quote becomes a literal quote, the backslash is dropped, the span goes on to
the closing quote. -/
theorem read_argv_escaped_quote (PHPDBG_MAX_CMD : Nat) (p q1 q2 : List Char)
    (hp : QUOTE ∉ p) (hend : ∀ c, p.getLast? = some c → isspace c = true)
    (hq1 : QUOTE ∉ q1) (hq2 : QUOTE ∉ q2) (hq2b : q2.getLast? ≠ some BACKSLASH)
    (hlen : (p ++ [QUOTE] ++ q1 ++ [BACKSLASH, QUOTE] ++ q2 ++ [QUOTE]).length
      < PHPDBG_MAX_CMD) :
    ∃ rp, phpdbg_read_argv PHPDBG_MAX_CMD p = some rp ∧
      phpdbg_read_argv PHPDBG_MAX_CMD
          (p ++ [QUOTE] ++ q1 ++ [BACKSLASH, QUOTE] ++ q2 ++ [QUOTE]) =
        some { argv := rp.argv ++ [⟨q1 ++ [QUOTE] ++ q2⟩], malformed := false } := by
  have hqs : isspace QUOTE = false := by decide
  have hbq : BACKSLASH ≠ QUOTE := by decide
  have hprev : lastOr (some QUOTE) q2 ≠ some BACKSLASH :=
    lastOr_ne_backslash q2 (some QUOTE) (by decide) hq2b
  have hplen : p.length < PHPDBG_MAX_CMD := by
    simp only [List.length_append] at hlen
    omega
  refine ⟨_, read_argv_eq_view PHPDBG_MAX_CMD p hplen, ?_⟩
  rw [read_argv_eq_view PHPDBG_MAX_CMD _ hlen]
  congr 1
  simp only [List.append_assoc, List.cons_append, List.nil_append]
  rw [view_loop_append, view_prefix p hp hend]
  simp only [view_loop, view_step, hqs, Bool.false_eq_true, if_false, if_true]
  rw [view_loop_append, view_string_run q1 hq1]
  simp only [view_loop, view_step, hbq, if_false, if_true, List.nil_append,
    List.append_eq_nil, List.cons_ne_nil, and_false, List.dropLast_concat]
  rw [view_loop_append, view_string_run q2 hq2]
  simp only [view_loop]
  rw [view_close_quote _ hprev]
  simp [view_finish]

/-- C10, evaluated where it fails: with `q1` the string of
`PHPDBG_MAX_CMD + 1` letters `a` and `q2` = `b` (no double quote, no final
backslash) the claim promises the single token `q1"b`; the tokenizer
accumulates `q1` in `char b[PHPDBG_MAX_CMD]` without a bound check and writes
outside the array before it reaches the escaped quote. The line `foo "a\"b"`
gives `foo` and `a"b`. -/
theorem read_argv_escaped_quote_overflow (PHPDBG_MAX_CMD : Nat) :
    QUOTE ∉ List.replicate (PHPDBG_MAX_CMD + 1) (Char.ofNat 97) ∧
    phpdbg_read_argv PHPDBG_MAX_CMD
      ([QUOTE] ++ List.replicate (PHPDBG_MAX_CMD + 1) (Char.ofNat 97)
        ++ [BACKSLASH, QUOTE] ++ "b".toList ++ [QUOTE]) = none ∧
    phpdbg_read_argv EXAMPLE_MAX_CMD "foo \"a\\\"b\"".toList =
      some { argv := [⟨"foo".toList⟩, ⟨"a\"b".toList⟩], malformed := false } := by
  refine ⟨replicate_not_mem _ _ _ (by decide), ?_, by decide⟩
  have h := read_argv_overflow PHPDBG_MAX_CMD (Char.ofNat 97) (by decide) (by decide)
    [QUOTE] ([BACKSLASH, QUOTE] ++ "b".toList ++ [QUOTE])
  simpa [List.append_assoc] using h

/-! ## Tokenizer: unterminated quote (C11) -/

theorem malformed_iff_in_string (cap : Nat) (f : argv_frame) (r : read_argv_result)
    (h : phpdbg_read_argv_finish cap f = some r) :
    r.malformed = true ↔ f.state = states.IN_STRING := by
  unfold phpdbg_read_argv_finish at h
  cases hs : f.state <;> rw [hs] at h <;> simp only [] at h
  · cases h; simp
  · cases hr : RESET_STATE cap f with
    | none => rw [hr] at h; cases h
    | some f2 => rw [hr] at h; cases h; simp
  · cases h; simp

/-- For a line `p` and a string `q`, both without a double quote, tokenizing
`p "q` (the quote never closed), when shorter than the buffer, reports the
malformed-input condition and returns exactly the tokens of `p`; `q` is not
emitted. The report is made exactly when scanning ends in `IN_STRING`. -/
theorem read_argv_unclosed_quote (PHPDBG_MAX_CMD : Nat) (p q : List Char)
    (hp : QUOTE ∉ p) (hq : QUOTE ∉ q)
    (hlen : (p ++ [SPACE, QUOTE] ++ q).length < PHPDBG_MAX_CMD) :
    (∃ rp, phpdbg_read_argv PHPDBG_MAX_CMD p = some rp ∧
      phpdbg_read_argv PHPDBG_MAX_CMD (p ++ [SPACE, QUOTE] ++ q) =
        some { argv := rp.argv, malformed := true }) ∧
    ∀ (line : List Char) (f : argv_frame) (r : read_argv_result),
      phpdbg_read_argv_loop PHPDBG_MAX_CMD none line argv_frame.init = some f →
      phpdbg_read_argv_finish PHPDBG_MAX_CMD f = some r →
      (r.malformed = true ↔ f.state = states.IN_STRING) := by
  have hsp : isspace SPACE = true := by decide
  have hqs : isspace QUOTE = false := by decide
  have hplen : p.length < PHPDBG_MAX_CMD := by
    simp only [List.length_append] at hlen
    omega
  constructor
  · refine ⟨_, read_argv_eq_view PHPDBG_MAX_CMD p hplen, ?_⟩
    rw [read_argv_eq_view PHPDBG_MAX_CMD _ hlen]
    congr 1
    simp only [List.append_assoc, List.cons_append, List.nil_append]
    rw [view_loop_append]
    simp only [view_loop]
    rw [view_after_space p hp SPACE hsp]
    simp only [view_step, hqs, Bool.false_eq_true, if_false, if_true]
    rw [view_string_run q hq]
    simp [view_finish]
  · intro line f r _ hfin
    exact malformed_iff_in_string PHPDBG_MAX_CMD f r hfin

/-- C11, evaluated where it fails: with `p` = `x` and `q` the string of
`PHPDBG_MAX_CMD + 1` letters `a` (neither contains a double quote) the claim
promises a malformed-input report and the token `x`; the tokenizer accumulates
`q` in `char b[PHPDBG_MAX_CMD]` without a bound check and writes outside the
array before it reaches the end of the line. The line `foo "bar` gives `foo`
with the report. -/
theorem read_argv_unclosed_quote_overflow (PHPDBG_MAX_CMD : Nat) :
    QUOTE ∉ "x".toList ∧
    QUOTE ∉ List.replicate (PHPDBG_MAX_CMD + 1) (Char.ofNat 97) ∧
    phpdbg_read_argv PHPDBG_MAX_CMD
      ("x".toList ++ [SPACE, QUOTE] ++ List.replicate (PHPDBG_MAX_CMD + 1) (Char.ofNat 97))
      = none ∧
    phpdbg_read_argv EXAMPLE_MAX_CMD "foo \"bar".toList =
      some { argv := [⟨"foo".toList⟩], malformed := true } := by
  refine ⟨by decide, replicate_not_mem _ _ _ (by decide), ?_, by decide⟩
  have h := read_argv_overflow PHPDBG_MAX_CMD (Char.ofNat 97) (by decide) (by decide)
    ("x".toList ++ [SPACE, QUOTE]) []
  simpa [List.append_assoc] using h

/-! ## Tokenizer: index bounds (C18) -/

/-- C18: let the scan of `line` stand before its character `c` at offset
`pre.length` (the frame is the loop run on `pre`, the look-behind is the last
character of `pre`). Whenever the scan has come that far, `l` is at most the
number of characters consumed; in `IN_STRING` the offset is at least 1, so the
look-behind read is inside the line, and if the look-behind is a backslash
then `l` is at least 1, so the write to `b[l-1]` of the escaped-quote branch
has no negative index. After the whole line `l` is at most its length. For a
line shorter than `PHPDBG_MAX_CMD` every access is in bounds: the scan of
`pre`, the iteration at `c`, the rest of the loop and the final terminator
write all go through, with `l` below `PHPDBG_MAX_CMD`. -/
theorem read_argv_index_bounds (PHPDBG_MAX_CMD : Nat) (line pre post : List Char) (c : Char)
    (hsplit : line = pre ++ c :: post) :
    phpdbg_read_argv_loop PHPDBG_MAX_CMD none line argv_frame.init =
      (match phpdbg_read_argv_loop PHPDBG_MAX_CMD none pre argv_frame.init with
       | none => none
       | some f =>
         match phpdbg_read_argv_step PHPDBG_MAX_CMD (lastOr none pre) c f with
         | none => none
         | some f1 => phpdbg_read_argv_loop PHPDBG_MAX_CMD (some c) post f1) ∧
    (∀ f : argv_frame,
      phpdbg_read_argv_loop PHPDBG_MAX_CMD none pre argv_frame.init = some f →
      f.l ≤ pre.length ∧
      (f.state = states.IN_STRING →
        1 ≤ pre.length ∧ lastOr none pre ≠ none ∧
        (lastOr none pre = some BACKSLASH → 1 ≤ f.l))) ∧
    (∀ fl : argv_frame,
      phpdbg_read_argv_loop PHPDBG_MAX_CMD none line argv_frame.init = some fl →
      fl.l ≤ line.length) ∧
    (line.length < PHPDBG_MAX_CMD →
      ∃ (f f1 fl : argv_frame) (r : read_argv_result),
        phpdbg_read_argv_loop PHPDBG_MAX_CMD none pre argv_frame.init = some f ∧
        phpdbg_read_argv_step PHPDBG_MAX_CMD (lastOr none pre) c f = some f1 ∧
        phpdbg_read_argv_loop PHPDBG_MAX_CMD (some c) post f1 = some fl ∧
        phpdbg_read_argv_loop PHPDBG_MAX_CMD none line argv_frame.init = some fl ∧
        phpdbg_read_argv_finish PHPDBG_MAX_CMD fl = some r ∧
        f.l < PHPDBG_MAX_CMD ∧ fl.l < PHPDBG_MAX_CMD) := by
  have hdecomp : phpdbg_read_argv_loop PHPDBG_MAX_CMD none line argv_frame.init =
      (match phpdbg_read_argv_loop PHPDBG_MAX_CMD none pre argv_frame.init with
       | none => none
       | some f =>
         match phpdbg_read_argv_step PHPDBG_MAX_CMD (lastOr none pre) c f with
         | none => none
         | some f1 => phpdbg_read_argv_loop PHPDBG_MAX_CMD (some c) post f1) := by
    rw [hsplit, loop_append]
    cases phpdbg_read_argv_loop PHPDBG_MAX_CMD none pre argv_frame.init with
    | none => rfl
    | some f => rfl
  have hlen : pre.length < line.length := by
    rw [hsplit]; simp
  refine ⟨hdecomp, ?_, ?_, ?_⟩
  · intro f hf
    have hinv := loop_index_inv PHPDBG_MAX_CMD pre none argv_frame.init f 0 hf init_index_inv
    simp only [Nat.zero_add] at hinv
    exact hinv
  · intro fl hfl
    have hinv := loop_index_inv PHPDBG_MAX_CMD line none argv_frame.init fl 0 hfl
      init_index_inv
    simp only [Nat.zero_add] at hinv
    exact hinv.1
  · intro hcap
    obtain ⟨fl, hfl⟩ := loop_ok PHPDBG_MAX_CMD line none argv_frame.init 0 init_index_inv
      (by omega)
    have hinvl := loop_index_inv PHPDBG_MAX_CMD line none argv_frame.init fl 0 hfl
      init_index_inv
    simp only [Nat.zero_add] at hinvl
    obtain ⟨r, hr⟩ := finish_ok PHPDBG_MAX_CMD _ fl _ hinvl hcap
    obtain ⟨f, hf⟩ := loop_ok PHPDBG_MAX_CMD pre none argv_frame.init 0 init_index_inv
      (by omega)
    have hinvp := loop_index_inv PHPDBG_MAX_CMD pre none argv_frame.init f 0 hf
      init_index_inv
    simp only [Nat.zero_add] at hinvp
    obtain ⟨f1, hf1⟩ := step_ok PHPDBG_MAX_CMD (lastOr none pre) c f pre.length hinvp
      (by omega)
    have hrest : phpdbg_read_argv_loop PHPDBG_MAX_CMD (some c) post f1 = some fl := by
      rw [hdecomp, hf] at hfl
      simp only [hf1] at hfl
      exact hfl
    exact ⟨f, f1, fl, r, hf, hf1, hrest, hfl, hr, by have := hinvp.1; omega,
      by have := hinvl.1; omega⟩

/-- Witness for C18: the line `"a\"b"` with a buffer of `EXAMPLE_MAX_CMD`
characters, before its escaped quote at offset 3: the scan has come that far,
the state is `IN_STRING`, the look-behind is the backslash, and `l` is at
least 1. -/
theorem read_argv_index_bounds_witness :
    ∃ f : argv_frame,
      phpdbg_read_argv_loop EXAMPLE_MAX_CMD none ([QUOTE] ++ "a".toList ++ [BACKSLASH])
        argv_frame.init = some f ∧
      f.state = states.IN_STRING ∧
      lastOr none ([QUOTE] ++ "a".toList ++ [BACKSLASH]) = some BACKSLASH ∧
      1 ≤ f.l ∧ f.l ≤ 3 ∧ f.l < EXAMPLE_MAX_CMD := by
  have key := read_argv_index_bounds EXAMPLE_MAX_CMD "\"a\\\"b\"".toList
    ([QUOTE] ++ "a".toList ++ [BACKSLASH]) ("b".toList ++ [QUOTE]) QUOTE (by decide)
  obtain ⟨f, f1, fl, r, hf, -, -, -, -, hfl, -⟩ := key.2.2.2 (by decide)
  have hv := loop_view EXAMPLE_MAX_CMD _ none argv_frame.init f hf
  have hst : f.state = states.IN_STRING := by
    have h1 : f.view.state = (view_loop none ([QUOTE] ++ "a".toList ++ [BACKSLASH])
        argv_frame.init.view).state := by rw [hv]
    exact h1.trans (by decide)
  have hprev : lastOr none ([QUOTE] ++ "a".toList ++ [BACKSLASH]) = some BACKSLASH := by
    decide
  have hinv := key.2.1 f hf
  exact ⟨f, hf, hst, hprev, (hinv.2 hst).2.2 hprev, hinv.1, hfl⟩

/-! ## Dispatcher and tokenizer: the derived sub-Line (C19) -/

theorem view_step_out (prev : Option Char) (c : Char) (st : states) (acc : List Char)
    (out : List phpdbg_arg_t) :
    view_step prev c { state := st, acc := acc, argv := out } =
      { state := (view_step prev c { state := st, acc := acc, argv := [] }).state
        acc := (view_step prev c { state := st, acc := acc, argv := [] }).acc
        argv := out ++ (view_step prev c { state := st, acc := acc, argv := [] }).argv } := by
  unfold view_step
  cases st <;> simp only []
  · by_cases h1 : isspace c = true
    · simp [h1]
    · by_cases h2 : c = QUOTE
      · have hq : isspace QUOTE = false := by decide
        subst h2
        simp [hq]
      · simp [h1, h2]
  · by_cases h1 : isspace c = true <;> simp [h1]
  · by_cases h2 : c = QUOTE
    · by_cases h3 : prev = some BACKSLASH <;> simp [h2, h3]
    · simp [h2]

theorem view_loop_out (xs : List Char) :
    ∀ (prev : Option Char) (st : states) (acc : List Char) (out : List phpdbg_arg_t),
      view_loop prev xs { state := st, acc := acc, argv := out } =
        { state := (view_loop prev xs { state := st, acc := acc, argv := [] }).state
          acc := (view_loop prev xs { state := st, acc := acc, argv := [] }).acc
          argv := out ++ (view_loop prev xs { state := st, acc := acc, argv := [] }).argv } := by
  induction xs with
  | nil => intro prev st acc out; simp [view_loop]
  | cons c cs ih =>
    intro prev st acc out
    simp only [view_loop]
    rw [view_step_out prev c st acc out]
    generalize view_step prev c { state := st, acc := acc, argv := [] } = r
    obtain ⟨rs, ra, ro⟩ := r
    simp only []
    rw [ih (some c) rs ra (out ++ ro), ih (some c) rs ra ro]
    simp

theorem view_finish_out (st : states) (acc : List Char) (out more : List phpdbg_arg_t) :
    (view_finish { state := st, acc := acc, argv := out ++ more }).argv =
      out ++ (view_finish { state := st, acc := acc, argv := more }).argv := by
  unfold view_finish
  cases st <;> simp

theorem view_loop_prev_irrel (xs : List Char) (prev prev' : Option Char) (v : scan_view)
    (hst : v.state ≠ states.IN_STRING) :
    view_loop prev xs v = view_loop prev' xs v := by
  cases xs with
  | nil => rfl
  | cons c cs =>
    simp only [view_loop]
    congr 1
    unfold view_step
    cases hs : v.state
    · rfl
    · rfl
    · exact absurd hs hst

theorem view_skip_spaces (xs : List Char) :
    ∀ (prev : Option Char) (out : List phpdbg_arg_t),
      view_loop prev xs { state := states.IN_BETWEEN, acc := [], argv := out } =
        view_loop none (xs.dropWhile isspace)
          { state := states.IN_BETWEEN, acc := [], argv := out } := by
  induction xs with
  | nil => intro prev out; rfl
  | cons c cs ih =>
    intro prev out
    by_cases hsp : isspace c = true
    · rw [List.dropWhile_cons_of_pos hsp]
      simp only [view_loop, view_step, hsp, if_true]
      exact ih (some c) out
    · rw [List.dropWhile_cons_of_neg hsp]
      exact view_loop_prev_irrel _ _ _ _ (by simp)

theorem view_enter_word_head (c : Char) (cs : List Char) (hc : isspace c = false)
    (hcq : c ≠ QUOTE) (hw : ∀ x ∈ cs, isspace x = false) (prev : Option Char)
    (out : List phpdbg_arg_t) :
    view_loop prev (c :: cs) { state := states.IN_BETWEEN, acc := [], argv := out } =
      { state := states.IN_WORD, acc := c :: cs, argv := out } := by
  simp only [view_loop, view_step, hc, hcq, Bool.false_eq_true, if_false, List.nil_append]
  rw [view_word_run cs hw]
  simp

theorem split_first_word (xs : List Char) :
    ∃ w rest, xs = w ++ rest ∧ (∀ x ∈ w, isspace x = false) ∧
      (rest = [] ∨ ∃ s rest', rest = s :: rest' ∧ isspace s = true) := by
  induction xs with
  | nil => exact ⟨[], [], rfl, by simp, Or.inl rfl⟩
  | cons c cs ih =>
    by_cases hsp : isspace c = true
    · exact ⟨[], c :: cs, rfl, by simp, Or.inr ⟨c, cs, rfl, hsp⟩⟩
    · obtain ⟨w, rest, hsplit, hw, hrest⟩ := ih
      refine ⟨c :: w, rest, by rw [hsplit]; rfl, ?_, hrest⟩
      intro x hx
      rcases List.mem_cons.1 hx with hx | hx
      · subst hx; simpa using hsp
      · exact hw x hx

theorem trim_no_trailing (xs : List Char)
    (hlast : ∀ c, xs.getLast? = some c → isspace c = false) :
    (xs.reverse.dropWhile isspace).reverse = xs := by
  rcases List.eq_nil_or_concat xs with hx | ⟨ys, y, hx⟩
  · subst hx; rfl
  · rw [List.concat_eq_append] at hx
    subst hx
    have hy : isspace y = false := hlast y (by simp)
    simp [List.dropWhile_cons, hy]

theorem dropWhile_last (xs : List Char)
    (hlast : ∀ c, xs.getLast? = some c → isspace c = false) :
    ∀ c, (xs.dropWhile isspace).getLast? = some c → isspace c = false := by
  induction xs with
  | nil => intro c hc; simp at hc
  | cons x rest ih =>
    intro c hc
    by_cases hsp : isspace x = true
    · rw [List.dropWhile_cons_of_pos hsp] at hc
      apply ih _ c hc
      intro d hd
      apply hlast d
      cases rest with
      | nil => simp at hd
      | cons r rs => rw [List.getLast?_cons_cons]; exact hd
    · rw [List.dropWhile_cons_of_neg hsp] at hc
      exact hlast c hc

theorem trim_eq_dropWhile (xs : List Char)
    (hlast : ∀ c, xs.getLast? = some c → isspace c = false) :
    phpdbg_trim xs = xs.dropWhile isspace := by
  unfold phpdbg_trim
  exact trim_no_trailing _ (dropWhile_last xs hlast)

theorem view_first_token (c : Char) (w tail : List Char) (hc : isspace c = false)
    (hcq : c ≠ QUOTE) (hw : ∀ x ∈ w, isspace x = false)
    (htail : tail = [] ∨ ∃ s tail', tail = s :: tail' ∧ isspace s = true) :
    (view_finish (view_loop none (c :: (w ++ tail))
        { state := states.IN_BETWEEN, acc := [], argv := [] })).argv =
      phpdbg_arg_t.mk (c :: w) ::
        (view_finish (view_loop none (tail.dropWhile isspace)
          { state := states.IN_BETWEEN, acc := [], argv := [] })).argv := by
  rw [show c :: (w ++ tail) = (c :: w) ++ tail by rfl, view_loop_append,
    view_enter_word_head c w hc hcq hw]
  rcases htail with htail | ⟨s, tail', htail, hs⟩
  · subst htail
    simp [view_loop, view_finish]
  · subst htail
    rw [List.dropWhile_cons_of_pos hs]
    simp only [view_loop, view_step, hs, if_true, List.nil_append]
    rw [view_loop_out, view_skip_spaces]
    exact view_finish_out _ _ [phpdbg_arg_t.mk (c :: w)] _

theorem residual_first_token (c : Char) (w tail : List Char)
    (hlast : ∀ d, (c :: (w ++ tail)).getLast? = some d → isspace d = false) :
    phpdbg_residual (c :: (w ++ tail)) (phpdbg_arg_t.mk (c :: w)) =
      tail.dropWhile isspace := by
  have hdrop : (c :: (w ++ tail)).drop (phpdbg_arg_t.mk (c :: w)).length = tail := by
    simp [phpdbg_arg_t.length]
  unfold phpdbg_residual
  rw [hdrop]
  apply trim_eq_dropWhile
  intro d hd
  cases tail with
  | nil => simp at hd
  | cons s tail' =>
    apply hlast d
    rw [show c :: (w ++ s :: tail') = (c :: w) ++ (s :: tail') by rfl, List.getLast?_append]
    simp [hd]

theorem step_between_prev (cap : Nat) (prev prev' : Option Char) (c : Char) (f : argv_frame)
    (hs : f.state = states.IN_BETWEEN) :
    phpdbg_read_argv_step cap prev c f = phpdbg_read_argv_step cap prev' c f := by
  simp only [phpdbg_read_argv_step, hs]

theorem loop_skip_spaces (cap : Nat) (xs : List Char) :
    ∀ (prev : Option Char) (f : argv_frame), f.state = states.IN_BETWEEN →
      phpdbg_read_argv_loop cap prev xs f =
        phpdbg_read_argv_loop cap none (xs.dropWhile isspace) f := by
  induction xs with
  | nil => intro prev f _; rfl
  | cons c cs ih =>
    intro prev f hs
    by_cases hsp : isspace c = true
    · rw [List.dropWhile_cons_of_pos hsp]
      have hstep : phpdbg_read_argv_step cap prev c f = some f := by
        simp [phpdbg_read_argv_step, hs, hsp]
      simp only [phpdbg_read_argv_loop, hstep]
      exact ih (some c) f hs
    · rw [List.dropWhile_cons_of_neg hsp]
      simp only [phpdbg_read_argv_loop]
      rw [step_between_prev cap prev none c f hs]

theorem push_shape (cap : Nat) (c : Char) (f g f1 : argv_frame) (hsh : Shape f g)
    (h : push cap c f = some f1) :
    ∃ g1, push cap c g = some g1 ∧ Shape f1 g1 := by
  obtain ⟨hl, hf1⟩ := push_some cap c f f1 h
  subst hf1
  exact ⟨_, push_eq_some cap c g (hsh.2 ▸ hl), hsh.1, by simp [hsh.2]⟩

theorem reset_shape (cap : Nat) (f g f1 : argv_frame) (hsh : Shape f g)
    (h : RESET_STATE cap f = some f1) :
    ∃ g1, RESET_STATE cap g = some g1 ∧ Shape f1 g1 := by
  obtain ⟨hl, hst, hl0⟩ := reset_some cap f f1 h
  exact ⟨_, reset_eq_some cap g (hsh.2 ▸ hl), by simp [Shape, hst, hl0]⟩

theorem step_shape (cap : Nat) (prev : Option Char) (c : Char) (f g f1 : argv_frame)
    (hsh : Shape f g) (h : phpdbg_read_argv_step cap prev c f = some f1) :
    ∃ g1, phpdbg_read_argv_step cap prev c g = some g1 ∧ Shape f1 g1 := by
  obtain ⟨hst, hl⟩ := hsh
  unfold phpdbg_read_argv_step at h ⊢
  rw [← hst]
  cases hs : f.state <;> rw [hs] at h <;> simp only [] at h ⊢
  · by_cases h1 : isspace c = true
    · simp only [h1, if_true, Option.some.injEq] at h ⊢
      subst h
      exact ⟨g, rfl, hst, hl⟩
    · by_cases h2 : c = QUOTE
      · have hq : isspace QUOTE = false := by decide
        subst h2
        simp only [hq, Bool.false_eq_true, if_false, if_true, Option.some.injEq] at h ⊢
        subst h
        exact ⟨_, rfl, rfl, hl⟩
      · simp only [h1, h2, if_false] at h ⊢
        exact push_shape cap c { f with state := states.IN_WORD }
          { g with state := states.IN_WORD } f1 ⟨rfl, hl⟩ h
  · by_cases h1 : isspace c = true
    · simp only [h1, if_true] at h ⊢
      exact reset_shape cap f g f1 ⟨hst, hl⟩ h
    · simp only [h1, if_false] at h ⊢
      exact push_shape cap c f g f1 ⟨hst, hl⟩ h
  · by_cases h2 : c = QUOTE
    · subst h2
      simp only [if_true] at h ⊢
      cases prev with
      | none => simp at h
      | some before =>
        simp only [] at h ⊢
        by_cases h3 : before = BACKSLASH
        · subst h3
          simp only [if_true] at h ⊢
          by_cases h4 : f.l = 0
          · simp [h4] at h
          · have h4g : g.l ≠ 0 := by rw [← hl]; exact h4
            simp only [h4, h4g, if_false] at h ⊢
            by_cases h5 : f.l - 1 < cap
            · rw [store_eq_some cap f.b (f.l - 1) QUOTE h5] at h
              simp only [Option.some.injEq] at h
              subst h
              rw [store_eq_some cap g.b (g.l - 1) QUOTE (by rw [← hl]; exact h5)]
              exact ⟨_, rfl, rfl, hl⟩
            · rw [store_eq_none cap f.b (f.l - 1) QUOTE h5] at h
              cases h
        · simp only [h3, if_false] at h ⊢
          exact reset_shape cap f g f1 ⟨hst, hl⟩ h
    · simp only [h2, if_false] at h ⊢
      exact push_shape cap c f g f1 ⟨hst, hl⟩ h

theorem loop_shape (cap : Nat) (xs : List Char) :
    ∀ (prev : Option Char) (f g f1 : argv_frame), Shape f g →
      phpdbg_read_argv_loop cap prev xs f = some f1 →
      ∃ g1, phpdbg_read_argv_loop cap prev xs g = some g1 ∧ Shape f1 g1 := by
  induction xs with
  | nil =>
    intro prev f g f1 hsh h
    simp only [phpdbg_read_argv_loop, Option.some.injEq] at h
    subst h
    exact ⟨g, rfl, hsh⟩
  | cons c cs ih =>
    intro prev f g f1 hsh h
    simp only [phpdbg_read_argv_loop] at h ⊢
    cases hstep : phpdbg_read_argv_step cap prev c f with
    | none => rw [hstep] at h; cases h
    | some f2 =>
      rw [hstep] at h
      simp only [] at h
      obtain ⟨g2, hg2, hsh2⟩ := step_shape cap prev c f g f2 hsh hstep
      rw [hg2]
      exact ih (some c) f2 g2 f1 hsh2 h

theorem finish_shape (cap : Nat) (f g : argv_frame) (r : read_argv_result)
    (hsh : Shape f g) (h : phpdbg_read_argv_finish cap f = some r) :
    ∃ r', phpdbg_read_argv_finish cap g = some r' := by
  unfold phpdbg_read_argv_finish at h ⊢
  rw [← hsh.1]
  cases hs : f.state <;> rw [hs] at h <;> simp only [] at h ⊢
  · exact ⟨_, rfl⟩
  · cases hr : RESET_STATE cap f with
    | none => rw [hr] at h; cases h
    | some f2 =>
      obtain ⟨g2, hg2, -⟩ := reset_shape cap f g f2 hsh hr
      rw [hg2]
      exact ⟨_, rfl⟩
  · exact ⟨_, rfl⟩

theorem scan_after_first_token (cap : Nat) (c : Char) (w tail : List Char)
    (hc : isspace c = false) (hcq : c ≠ QUOTE) (hw : ∀ x ∈ w, isspace x = false)
    (htail : tail = [] ∨ ∃ s tail', tail = s :: tail' ∧ isspace s = true)
    (fL : argv_frame) (r : read_argv_result)
    (hloop : phpdbg_read_argv_loop cap none (c :: (w ++ tail)) argv_frame.init = some fL)
    (hfin : phpdbg_read_argv_finish cap fL = some r) :
    ∃ r', phpdbg_read_argv cap (tail.dropWhile isspace) = some r' := by
  rcases htail with htail | ⟨s, tail', htail, hs⟩
  · subst htail
    exact ⟨_, rfl⟩
  · subst htail
    rw [show c :: (w ++ s :: tail') = (c :: w) ++ (s :: tail') by rfl, loop_append] at hloop
    cases h1 : phpdbg_read_argv_loop cap none (c :: w) argv_frame.init with
    | none => rw [h1] at hloop; cases hloop
    | some f1 =>
      rw [h1] at hloop
      simp only [phpdbg_read_argv_loop] at hloop
      cases h2 : phpdbg_read_argv_step cap (lastOr none (c :: w)) s f1 with
      | none => rw [h2] at hloop; cases hloop
      | some f2 =>
        rw [h2] at hloop
        simp only [] at hloop
        have hv := loop_view cap (c :: w) none argv_frame.init f1 h1
        have hst1 : f1.state = states.IN_WORD := by
          have h3 : f1.view.state = (view_loop none (c :: w)
              { state := states.IN_BETWEEN, acc := [], argv := [] }).state := by
            rw [hv]; rfl
          rw [view_enter_word_head c w hc hcq hw] at h3
          exact h3
        have hreset : RESET_STATE cap f1 = some f2 := by
          simpa [phpdbg_read_argv_step, hst1, hs] using h2
        obtain ⟨-, hst2, hl2⟩ := reset_some cap f1 f2 hreset
        rw [loop_skip_spaces cap tail' (some s) f2 hst2] at hloop
        have hsh : Shape f2 argv_frame.init := ⟨hst2, hl2⟩
        obtain ⟨fR, hR, hshR⟩ := loop_shape cap _ none f2 argv_frame.init fL hsh hloop
        obtain ⟨r', hr'⟩ := finish_shape cap fL fR r hshR hfin
        refine ⟨r', ?_⟩
        rw [List.dropWhile_cons_of_pos hs]
        unfold phpdbg_read_argv
        rw [hR]
        exact hr'

theorem subline_tokens (cap : Nat) (line : List Char) (r : read_argv_result)
    (t0 : phpdbg_arg_t) (rest : List phpdbg_arg_t)
    (hfirst : ∀ c, line.head? = some c → isspace c = false ∧ c ≠ QUOTE)
    (hlast : ∀ c, line.getLast? = some c → isspace c = false)
    (hr : phpdbg_read_argv cap line = some r) (hargv : r.argv = t0 :: rest) :
    ∃ r', phpdbg_read_argv cap (phpdbg_residual line t0) = some r' ∧ r'.argv = rest := by
  have hsound := read_argv_sound cap line r hr
  cases line with
  | nil =>
    rw [hsound] at hargv
    simp [view_loop, view_finish] at hargv
  | cons c cs =>
    obtain ⟨hc, hcq⟩ := hfirst c rfl
    obtain ⟨w, tail, hsplit, hw, htail⟩ := split_first_word cs
    subst hsplit
    have hA := view_first_token c w tail hc hcq hw htail
    rw [hsound, hA] at hargv
    simp only [List.cons.injEq] at hargv
    obtain ⟨h0, hrest⟩ := hargv
    subst h0
    have hB := residual_first_token c w tail hlast
    unfold phpdbg_read_argv at hr
    cases hl : phpdbg_read_argv_loop cap none (c :: (w ++ tail)) argv_frame.init with
    | none => rw [hl] at hr; cases hr
    | some fL =>
      rw [hl] at hr
      simp only [] at hr
      obtain ⟨r', hr'⟩ := scan_after_first_token cap c w tail hc hcq hw htail fL r hl hr
      refine ⟨r', by rw [hB]; exact hr', ?_⟩
      rw [read_argv_sound cap _ r' hr']
      exact hrest

/-- C19: for a line without leading or trailing white space whose first
character is not a double quote and which the tokenizer handles, the tokens
`phpdbg_do_cmd` hands to the child table (the line's tokens without the first,
`argv + 1`) are the tokens `phpdbg_read_argv` returns on the sub-Line's raw
text (the line with its first `argv[0]->length` characters dropped, then
trimmed): the sub-Line of the recursive call is the fresh Line of the
remaining text, and the recursive call is the dispatch of that fresh Line. -/
theorem do_cmd_subline_is_fresh (PHPDBG_MAX_CMD : Nat) (line : List Char)
    (r : read_argv_result) (t0 : phpdbg_arg_t) (rest : List phpdbg_arg_t)
    (hfirst : ∀ c, line.head? = some c → isspace c = false ∧ c ≠ QUOTE)
    (hlast : ∀ c, line.getLast? = some c → isspace c = false)
    (hr : phpdbg_read_argv PHPDBG_MAX_CMD line = some r)
    (hargv : r.argv = t0 :: rest) :
    (∃ r', phpdbg_read_argv PHPDBG_MAX_CMD (phpdbg_residual line t0) = some r' ∧
      r'.argv = rest) ∧
    phpdbg_read_input PHPDBG_MAX_CMD (line.drop t0.length) =
      some { string := phpdbg_residual line t0, argv := rest } ∧
    ∀ {σ : Type} (env : phpdbg_env σ) (subs : List phpdbg_command_t) (g : phpdbg_globals σ)
      (fresh : phpdbg_input_t),
      phpdbg_read_input PHPDBG_MAX_CMD (line.drop t0.length) = some fresh →
      phpdbg_do_cmd_argv env rest (phpdbg_residual line t0) subs g =
        phpdbg_do_cmd env subs fresh g := by
  obtain ⟨r', hr', hrest⟩ := subline_tokens PHPDBG_MAX_CMD line r t0 rest hfirst hlast hr hargv
  have hin : phpdbg_read_input PHPDBG_MAX_CMD (line.drop t0.length) =
      some { string := phpdbg_residual line t0, argv := rest } := by
    unfold phpdbg_read_input
    simp only [phpdbg_residual] at hr' ⊢
    rw [hr']
    simp only [hrest]
  refine ⟨⟨r', hr', hrest⟩, hin, ?_⟩
  intro σ env subs g fresh hfresh
  rw [hin] at hfresh
  cases hfresh
  rfl

/-- Witness for C19: for `break line 10` with a buffer of `EXAMPLE_MAX_CMD`
characters the sub-Line handed to the children of `break` is the fresh Line of
` line 10`, with tokens `line` and `10`. -/
theorem do_cmd_subline_is_fresh_witness :
    (∃ r', phpdbg_read_argv EXAMPLE_MAX_CMD
        (phpdbg_residual "break line 10".toList ⟨"break".toList⟩) = some r' ∧
      r'.argv = [⟨"line".toList⟩, ⟨"10".toList⟩]) ∧
    phpdbg_read_input EXAMPLE_MAX_CMD ("break line 10".toList.drop 5) =
      some { string := "line 10".toList, argv := [⟨"line".toList⟩, ⟨"10".toList⟩] } := by
  have key := do_cmd_subline_is_fresh EXAMPLE_MAX_CMD "break line 10".toList
    { argv := [⟨"break".toList⟩, ⟨"line".toList⟩, ⟨"10".toList⟩], malformed := false }
    ⟨"break".toList⟩ [⟨"line".toList⟩, ⟨"10".toList⟩] (by decide) (by decide) (by decide) rfl
  refine ⟨key.1, ?_⟩
  have h2 := key.2.1
  have hres : phpdbg_residual "break line 10".toList ⟨"break".toList⟩ = "line 10".toList := by
    decide
  rw [hres] at h2
  exact h2

/-! ## Classifier: the branches of `phpdbg_parse_param` (C12, C14 to C17) -/

theorem parse_param_obj_variant (u : phpdbg_utils) (str : List Char) (len : Nat)
    (param : phpdbg_param_obj) :
    (phpdbg_parse_param_obj u str len param).variant = phpdbg_parse_param u str len := by
  unfold phpdbg_parse_param_obj phpdbg_parse_param
  by_cases h0 : len = 0
  · simp [h0, phpdbg_param_obj.variant]
  · by_cases h1 : u.phpdbg_is_addr str = true
    · simp [h0, h1, phpdbg_param_obj.variant]
    · by_cases h2 : u.phpdbg_is_numeric str = true
      · simp [h0, h1, h2, phpdbg_param_obj.variant]
      · simp only [h0, h1, h2, if_false, Bool.false_eq_true]
        cases h3 : u.phpdbg_is_class_method str (len + 1) with
        | some cf =>
          obtain ⟨cn, fn⟩ := cf
          simp [phpdbg_param_obj.variant]
        | none =>
          cases h4 : strchr str COLON with
          | none => simp [phpdbg_param_obj.variant]
          | some i =>
            by_cases h5 : u.phpdbg_is_numeric (str.drop (i + 1)) = true
            · simp [h5, phpdbg_param_obj.variant]
            · simp [h5, phpdbg_param_obj.variant]

theorem findSep_split (str : List Char) :
    ∀ i, findSep str = some i → str = str.take i ++ [COLON, COLON] ++ str.drop (i + 2) := by
  induction str with
  | nil => intro i h; simp [findSep] at h
  | cons x xs ih =>
    intro i h
    cases xs with
    | nil => simp [findSep] at h
    | cons y more =>
      by_cases hxy : x = COLON ∧ y = COLON
      · simp only [findSep, hxy, and_self, if_true, Option.some.injEq] at h
        subst h
        obtain ⟨hx, hy⟩ := hxy
        subst hx; subst hy
        simp
      · simp only [findSep, hxy, if_false, Option.map_eq_some'] at h
        obtain ⟨j, hj, hji⟩ := h
        subst hji
        have := ih j hj
        simp only [List.take_succ_cons, List.drop_succ_cons, List.cons_append,
          List.cons.injEq, true_and]
        simpa using this

/-- C14: a string of non-zero length that is neither of address form nor an
integer literal and that the Class::method test accepts is classified Method
with the class and the name that test splits out, whatever follows a colon in
it; so it is not classified File. For the test as the spec describes it, the
class and the name are the text before and the text after the `::`. -/
theorem parse_param_method (u : phpdbg_utils) (str : List Char) (len : Nat)
    (class_name func_name : List Char)
    (hlen : len ≠ 0) (haddr : u.phpdbg_is_addr str = false)
    (hnum : u.phpdbg_is_numeric str = false)
    (hcm : u.phpdbg_is_class_method str (len + 1) = some (class_name, func_name)) :
    phpdbg_parse_param u str len = phpdbg_param_t.METHOD_PARAM class_name func_name ∧
    (∀ (name : List Char) (line : Int),
      phpdbg_parse_param u str len ≠ phpdbg_param_t.FILE_PARAM name line) ∧
    (phpdbg_is_class_method str (len + 1) = some (class_name, func_name) →
      str = class_name ++ [COLON, COLON] ++ func_name ∧ class_name ≠ [] ∧ func_name ≠ []) := by
  have h : phpdbg_parse_param u str len =
      phpdbg_param_t.METHOD_PARAM class_name func_name := by
    simp [phpdbg_parse_param, hlen, haddr, hnum, hcm]
  refine ⟨h, ?_, ?_⟩
  · intro name line hn
    rw [h] at hn
    cases hn
  · intro hspec
    unfold phpdbg_is_class_method at hspec
    cases hsep : findSep str with
    | none => rw [hsep] at hspec; cases hspec
    | some i =>
      rw [hsep] at hspec
      simp only at hspec
      by_cases hi : i = 0 ∨ str.length ≤ i + 2
      · rw [if_pos hi] at hspec; cases hspec
      · rw [if_neg hi] at hspec
        simp only [Option.some.injEq, Prod.mk.injEq] at hspec
        obtain ⟨hc, hf⟩ := hspec
        have hsplit := findSep_split str i hsep
        rw [hc, hf] at hsplit
        refine ⟨hsplit, ?_, ?_⟩
        · intro hnil
          rw [← hc] at hnil
          have hlen0 : (str.take i).length = 0 := by rw [hnil]; rfl
          rw [List.length_take] at hlen0
          omega
        · intro hnil
          rw [← hf] at hnil
          have hlen0 : (str.drop (i + 2)).length = 0 := by rw [hnil]; rfl
          rw [List.length_drop] at hlen0
          omega

/-- Witness for C14: `Foo::bar` gives Method with class `Foo` and name `bar`;
`Foo::10`, where a colon is followed by an integer literal, gives Method
too. -/
theorem parse_param_method_witness :
    phpdbg_parse_param (spec_utils id) "Foo::bar".toList 8 =
      phpdbg_param_t.METHOD_PARAM "Foo".toList "bar".toList ∧
    phpdbg_parse_param (spec_utils id) "Foo::10".toList 7 =
      phpdbg_param_t.METHOD_PARAM "Foo".toList "10".toList ∧
    "Foo::bar".toList = "Foo".toList ++ [COLON, COLON] ++ "bar".toList :=
  ⟨(parse_param_method (spec_utils id) "Foo::bar".toList 8 "Foo".toList "bar".toList
      (by decide) (by decide) (by decide) (by decide)).1,
   by decide,
   ((parse_param_method (spec_utils id) "Foo::bar".toList 8 "Foo".toList "bar".toList
      (by decide) (by decide) (by decide) (by decide)).2.2 (by decide)).1⟩

theorem strchr_split (str : List Char) (c : Char) :
    ∀ i, strchr str c = some i →
      str = str.take i ++ c :: str.drop (i + 1) ∧ c ∉ str.take i := by
  induction str with
  | nil => intro i h; simp [strchr] at h
  | cons x xs ih =>
    intro i h
    by_cases hx : x = c
    · simp only [strchr, hx, if_true, Option.some.injEq] at h
      subst h
      subst hx
      simp
    · simp only [strchr, hx, if_false, Option.map_eq_some'] at h
      obtain ⟨j, hj, hji⟩ := h
      subst hji
      obtain ⟨h1, h2⟩ := ih j hj
      refine ⟨?_, ?_⟩
      · simp only [List.take_succ_cons, List.drop_succ_cons, List.cons_append,
          List.cons.injEq, true_and]
        exact h1
      · simp only [List.take_succ_cons, List.mem_cons, not_or]
        exact ⟨fun hc => hx hc.symm, h2⟩

theorem strchr_none (str : List Char) (c : Char) (h : strchr str c = none) : c ∉ str := by
  induction str with
  | nil => simp
  | cons x xs ih =>
    by_cases hx : x = c
    · simp [strchr, hx] at h
    · simp only [strchr, hx, if_false, Option.map_eq_none'] at h
      simp only [List.mem_cons, not_or]
      exact ⟨fun hc => hx hc.symm, ih h⟩

theorem strchr_first (pre post : List Char) (c : Char) (hpre : c ∉ pre) :
    strchr (pre ++ c :: post) c = some pre.length := by
  induction pre with
  | nil => simp [strchr]
  | cons x xs ih =>
    have hx : x ≠ c := fun h => hpre (h ▸ List.mem_cons_self x xs)
    have hxs : c ∉ xs := fun h => hpre (List.mem_cons_of_mem x h)
    simp [strchr, hx, ih hxs]

theorem parse_param_file_first_colon (u : phpdbg_utils) (path suffix : List Char) (len : Nat)
    (hlen : len ≠ 0) (hpath : COLON ∉ path)
    (haddr : u.phpdbg_is_addr (path ++ COLON :: suffix) = false)
    (hnum : u.phpdbg_is_numeric (path ++ COLON :: suffix) = false)
    (hcm : u.phpdbg_is_class_method (path ++ COLON :: suffix) (len + 1) = none)
    (hsuffix : u.phpdbg_is_numeric suffix = true) :
    phpdbg_parse_param u (path ++ COLON :: suffix) len =
      phpdbg_param_t.FILE_PARAM (u.phpdbg_resolve_path path) (strtol suffix 0) := by
  have hs := strchr_first path suffix COLON hpath
  simp [phpdbg_parse_param, hlen, haddr, hnum, hcm, hs, hsuffix]

/-- C15, evaluated where it fails: `C:/x.php:10` is neither of address form
nor an integer literal nor a Class::method pattern, and it contains a colon
(the second) whose suffix `10` is an integer literal; the classifier looks at
the first colon only, whose suffix `/x.php:10` is no integer literal, and
yields Str of the whole text, not File of `C:/x.php` at line 10. With a single
colon, `/tmp/x.php:10` yields File of `/tmp/x.php` at line 10. -/
theorem parse_param_file_second_colon :
    phpdbg_is_addr "C:/x.php:10".toList = false ∧
    phpdbg_is_numeric "C:/x.php:10".toList = false ∧
    phpdbg_is_class_method "C:/x.php:10".toList 12 = none ∧
    "C:/x.php:10".toList = "C:/x.php".toList ++ COLON :: "10".toList ∧
    phpdbg_is_numeric "10".toList = true ∧
    phpdbg_parse_param (spec_utils id) "C:/x.php:10".toList 11 =
      phpdbg_param_t.STR_PARAM "C:/x.php:10".toList 11 ∧
    phpdbg_parse_param (spec_utils id) "/tmp/x.php:10".toList 13 =
      phpdbg_param_t.FILE_PARAM "/tmp/x.php".toList 10 := by
  refine ⟨by decide, by decide, by decide, by decide, by decide, by decide, by decide⟩

/-- C16: a string of non-zero length `len` that is not of address form, is
no integer literal, is no Class::method pattern, and in which no colon is
followed by an integer literal, is classified Str with the first `len`
characters as content, which is the whole string when `len` is its length,
and `len` as recorded length. Whatever the input, the classifier yields one
of the six variants. -/
theorem parse_param_str (u : phpdbg_utils) (str : List Char) (len : Nat)
    (hlen : len ≠ 0) (haddr : u.phpdbg_is_addr str = false)
    (hnum : u.phpdbg_is_numeric str = false)
    (hcm : u.phpdbg_is_class_method str (len + 1) = none)
    (hcolon : ∀ pre post, str = pre ++ COLON :: post → u.phpdbg_is_numeric post = false) :
    phpdbg_parse_param u str len = phpdbg_param_t.STR_PARAM (str.take len) len ∧
    (len = str.length → phpdbg_parse_param u str len = phpdbg_param_t.STR_PARAM str len) ∧
    (∀ (s : List Char) (n : Nat),
      phpdbg_parse_param u s n = phpdbg_param_t.EMPTY_PARAM ∨
      (∃ a, phpdbg_parse_param u s n = phpdbg_param_t.ADDR_PARAM a) ∨
      (∃ v, phpdbg_parse_param u s n = phpdbg_param_t.NUMERIC_PARAM v) ∨
      (∃ c f, phpdbg_parse_param u s n = phpdbg_param_t.METHOD_PARAM c f) ∨
      (∃ p l, phpdbg_parse_param u s n = phpdbg_param_t.FILE_PARAM p l) ∨
      phpdbg_parse_param u s n = phpdbg_param_t.STR_PARAM (s.take n) n) := by
  have h : phpdbg_parse_param u str len = phpdbg_param_t.STR_PARAM (str.take len) len := by
    cases hs : strchr str COLON with
    | none => simp [phpdbg_parse_param, hlen, haddr, hnum, hcm, hs, estrndup]
    | some i =>
      have hsuf := hcolon _ _ (strchr_split str COLON i hs).1
      simp [phpdbg_parse_param, hlen, haddr, hnum, hcm, hs, hsuf, estrndup]
  refine ⟨h, ?_, ?_⟩
  · intro hl
    rw [h, hl, List.take_length]
  · intro s n
    unfold phpdbg_parse_param
    by_cases h0 : n = 0
    · left; simp [h0]
    · by_cases h1 : u.phpdbg_is_addr s = true
      · right; left; exact ⟨strtoul s 16, by simp [h0, h1]⟩
      · by_cases h2 : u.phpdbg_is_numeric s = true
        · right; right; left; exact ⟨strtol s 0, by simp [h0, h1, h2]⟩
        · simp only [h0, h1, h2, if_false, Bool.false_eq_true]
          cases h3 : u.phpdbg_is_class_method s (n + 1) with
          | some cf =>
            obtain ⟨cn, fn⟩ := cf
            right; right; right; left
            exact ⟨cn, fn, rfl⟩
          | none =>
            cases h4 : strchr s COLON with
            | none => simp [estrndup]
            | some i =>
              by_cases h5 : u.phpdbg_is_numeric (s.drop (i + 1)) = true
              · right; right; right; right; left
                exact ⟨u.phpdbg_resolve_path (s.take i), strtol (s.drop (i + 1)) 0,
                  by simp [h5]⟩
              · simp [h5, estrndup]

/-- Witness for C16: `hello` gives Str(`hello`) with length 5. -/
theorem parse_param_str_witness :
    phpdbg_parse_param (spec_utils id) "hello".toList 5 =
      phpdbg_param_t.STR_PARAM "hello".toList 5 :=
  (parse_param_str (spec_utils id) "hello".toList 5 (by decide) (by decide) (by decide)
    (by decide)
    (by
      intro pre post hsplit
      have hmem : COLON ∈ "hello".toList := by rw [hsplit]; simp
      exact absurd hmem (by decide))).2.1 (by decide)

/-- C17: when the given length is zero the classifier yields Empty whatever
the text and the helper tests are, and the only member of `*param` it writes
is `type`: every other member is as it was. -/
theorem parse_param_empty (u : phpdbg_utils) (str : List Char) (param : phpdbg_param_obj) :
    phpdbg_parse_param u str 0 = phpdbg_param_t.EMPTY_PARAM ∧
    phpdbg_parse_param_obj u str 0 param =
      { param with type := phpdbg_param_type.EMPTY_PARAM } ∧
    (phpdbg_parse_param_obj u str 0 param).variant = phpdbg_param_t.EMPTY_PARAM :=
  ⟨rfl, rfl, rfl⟩

/-! ## Dispatcher: resources (C20) -/

theorem accDigits_eq_foldl (base : Nat) (hbase : base ≤ 10) (ds : List Char)
    (hds : ∀ c ∈ ds, 48 ≤ c.toNat ∧ c.toNat < 48 + base) :
    ∀ acc : Nat,
      accDigits base ds acc = ds.foldl (fun a c => a * base + (c.toNat - 48)) acc := by
  induction ds with
  | nil => intro acc; rfl
  | cons c cs ih =>
    intro acc
    obtain ⟨h1, h2⟩ := hds c (List.mem_cons_self c cs)
    have hdv : digitVal c = some (c.toNat - 48) := by
      unfold digitVal
      rw [if_pos ⟨h1, by omega⟩]
    have hlt : c.toNat - 48 < base := by omega
    simp only [accDigits, hdv, hlt, if_true, List.foldl_cons]
    exact ih (fun d hd => hds d (List.mem_cons_of_mem c hd)) _

theorem strtoSplit_decimal (d : Char) (ds : List Char)
    (hd1 : 49 ≤ d.toNat) (hd2 : d.toNat ≤ 57) :
    strtoSplit (d :: ds) 0 = (false, 10, d :: ds) := by
  have hsp : isspace d = false := by
    unfold isspace
    simp only [decide_eq_false_iff_not]
    omega
  have h45 : d ≠ Char.ofNat 45 := by
    intro h
    have : d.toNat = 45 := by rw [h]; decide
    omega
  have h43 : d ≠ Char.ofNat 43 := by
    intro h
    have : d.toNat = 43 := by rw [h]; decide
    omega
  have h48 : d ≠ Char.ofNat 48 := by
    intro h
    have : d.toNat = 48 := by rw [h]; decide
    omega
  have hz : ¬ d.toNat = 48 := by omega
  unfold strtoSplit
  rcases ds with _ | ⟨x, _ | ⟨y, more⟩⟩ <;>
    simp [List.dropWhile_cons, hsp, h45, h43, h48, hz]

theorem strtoSplit_octal (os : List Char)
    (hos : ∀ c ∈ os, 48 ≤ c.toNat ∧ c.toNat ≤ 55) :
    strtoSplit (Char.ofNat 48 :: os) 0 = (false, 8, Char.ofNat 48 :: os) := by
  have hsp : isspace (Char.ofNat 48) = false := by decide
  have h45 : Char.ofNat 48 ≠ Char.ofNat 45 := by decide
  have h43 : Char.ofNat 48 ≠ Char.ofNat 43 := by decide
  unfold strtoSplit
  rcases os with _ | ⟨x, _ | ⟨y, more⟩⟩
  · simp [List.dropWhile_cons, hsp, h45, h43]
  · simp [List.dropWhile_cons, hsp, h45, h43]
  · have hx := hos x (List.mem_cons_self x _)
    have hx1 : ¬ x.toNat = 120 := by omega
    have hx2 : ¬ x.toNat = 88 := by omega
    simp [List.dropWhile_cons, hsp, h45, h43, hx1, hx2]

theorem strtol_decimal (d : Char) (ds : List Char)
    (hd1 : 49 ≤ d.toNat) (hd2 : d.toNat ≤ 57)
    (hds : ∀ c ∈ ds, 48 ≤ c.toNat ∧ c.toNat ≤ 57) :
    strtol (d :: ds) 0 =
      if (digitsValue 10 (d :: ds) : Int) ≤ LONG_MAX then (digitsValue 10 (d :: ds) : Int)
      else LONG_MAX := by
  have hall : ∀ c ∈ d :: ds, 48 ≤ c.toNat ∧ c.toNat < 48 + 10 := by
    intro c hc
    rcases List.mem_cons.1 hc with hc | hc
    · subst hc; omega
    · have := hds c hc; omega
  unfold strtol
  rw [strtoSplit_decimal d ds hd1 hd2]
  simp only [accDigits_eq_foldl 10 (Nat.le_refl 10) (d :: ds) hall 0, digitsValue,
    Bool.false_eq_true, if_false]

theorem strtol_octal (os : List Char)
    (hos : ∀ c ∈ os, 48 ≤ c.toNat ∧ c.toNat ≤ 55) :
    strtol (Char.ofNat 48 :: os) 0 =
      if (digitsValue 8 (Char.ofNat 48 :: os) : Int) ≤ LONG_MAX then
        (digitsValue 8 (Char.ofNat 48 :: os) : Int)
      else LONG_MAX := by
  have hall : ∀ c ∈ Char.ofNat 48 :: os, 48 ≤ c.toNat ∧ c.toNat < 48 + 8 := by
    intro c hc
    rcases List.mem_cons.1 hc with hc | hc
    · subst hc; decide
    · have := hos c hc; omega
  unfold strtol
  rw [strtoSplit_octal os hos]
  simp only [accDigits_eq_foldl 8 (by omega) (Char.ofNat 48 :: os) hall 0, digitsValue,
    Bool.false_eq_true, if_false]

theorem spec_helpers_decimal (d : Char) (ds : List Char)
    (hd1 : 49 ≤ d.toNat) (hd2 : d.toNat ≤ 57)
    (hds : ∀ c ∈ ds, 48 ≤ c.toNat ∧ c.toNat ≤ 57) :
    phpdbg_is_addr (d :: ds) = false ∧ phpdbg_is_numeric (d :: ds) = true := by
  have hz : ¬ d.toNat = 48 := by omega
  have hdig : ∀ c : Char, 48 ≤ c.toNat ∧ c.toNat ≤ 57 → isDigitOf 10 c = true := by
    intro c hc
    unfold isDigitOf digitVal
    rw [if_pos hc]
    simp only [decide_eq_true_eq]
    omega
  constructor
  · unfold phpdbg_is_addr
    cases ds with
    | nil => rfl
    | cons x xs => simp [hz]
  · unfold phpdbg_is_numeric
    simp only [hz, if_false, List.all_cons, Bool.and_eq_true, List.all_eq_true]
    exact ⟨hdig d ⟨by omega, hd2⟩, fun c hc => hdig c (hds c hc)⟩

/-- Counterexample to C13 as stated: `9223372036854775808` is a non-empty
string of decimal digits without a leading zero, not of address form and an
integer literal; its decimal value is 2^63, but `strtol` saturates and the
classifier yields Numeric(2^63 - 1). -/
theorem parse_param_numeric_saturates :
    phpdbg_is_addr "9223372036854775808".toList = false ∧
    phpdbg_is_numeric "9223372036854775808".toList = true ∧
    digitsValue 10 "9223372036854775808".toList = 9223372036854775808 ∧
    phpdbg_parse_param (spec_utils id) "9223372036854775808".toList 19 =
      phpdbg_param_t.NUMERIC_PARAM 9223372036854775807 ∧
    phpdbg_parse_param (spec_utils id) "9223372036854775808".toList 19 ≠
      phpdbg_param_t.NUMERIC_PARAM 9223372036854775808 := by
  refine ⟨by decide, by decide, by decide, by decide, by decide⟩

/-- C13 as amended: a string of non-zero length that is not of address form
and passes the integer-literal test is classified Numeric, the value being
`strtol(str, NULL, 0)`: for a non-zero digit followed by decimal digits the
decimal value, for a `0` followed by octal digits the octal value, in both
cases replaced by `LONG_MAX` when it exceeds `LONG_MAX`. With the helper tests
as the spec describes them, every non-empty string of decimal digits without a
leading zero whose value is at most `LONG_MAX` is classified Numeric of its
decimal value. -/
theorem parse_param_numeric (u : phpdbg_utils) (str : List Char) (len : Nat)
    (hlen : len ≠ 0) (haddr : u.phpdbg_is_addr str = false)
    (hnum : u.phpdbg_is_numeric str = true) :
    phpdbg_parse_param u str len = phpdbg_param_t.NUMERIC_PARAM (strtol str 0) ∧
    (∀ (d : Char) (ds : List Char), str = d :: ds → 49 ≤ d.toNat → d.toNat ≤ 57 →
      (∀ c ∈ ds, 48 ≤ c.toNat ∧ c.toNat ≤ 57) →
      phpdbg_parse_param u str len = phpdbg_param_t.NUMERIC_PARAM
        (if (digitsValue 10 str : Int) ≤ LONG_MAX then (digitsValue 10 str : Int)
         else LONG_MAX)) ∧
    (∀ os : List Char, str = Char.ofNat 48 :: os → (∀ c ∈ os, 48 ≤ c.toNat ∧ c.toNat ≤ 55) →
      phpdbg_parse_param u str len = phpdbg_param_t.NUMERIC_PARAM
        (if (digitsValue 8 str : Int) ≤ LONG_MAX then (digitsValue 8 str : Int)
         else LONG_MAX)) ∧
    (∀ (canonical : List Char → List Char) (d : Char) (ds : List Char),
      49 ≤ d.toNat → d.toNat ≤ 57 → (∀ c ∈ ds, 48 ≤ c.toNat ∧ c.toNat ≤ 57) →
      (digitsValue 10 (d :: ds) : Int) ≤ LONG_MAX →
      phpdbg_parse_param (spec_utils canonical) (d :: ds) (d :: ds).length =
        phpdbg_param_t.NUMERIC_PARAM (digitsValue 10 (d :: ds))) := by
  have hmain : ∀ (v : phpdbg_utils) (s : List Char) (n : Nat), n ≠ 0 →
      v.phpdbg_is_addr s = false → v.phpdbg_is_numeric s = true →
      phpdbg_parse_param v s n = phpdbg_param_t.NUMERIC_PARAM (strtol s 0) := by
    intro v s n h0 h1 h2
    simp [phpdbg_parse_param, h0, h1, h2]
  refine ⟨hmain u str len hlen haddr hnum, ?_, ?_, ?_⟩
  · intro d ds hstr hd1 hd2 hds
    rw [hmain u str len hlen haddr hnum, hstr, strtol_decimal d ds hd1 hd2 hds]
  · intro os hstr hos
    rw [hmain u str len hlen haddr hnum, hstr, strtol_octal os hos]
  · intro canonical d ds hd1 hd2 hds hle
    obtain ⟨ha, hn⟩ := spec_helpers_decimal d ds hd1 hd2 hds
    rw [hmain (spec_utils canonical) (d :: ds) (d :: ds).length (by simp) ha hn,
      strtol_decimal d ds hd1 hd2 hds, if_pos hle]

/-- Witness for C13 as amended: `42` gives Numeric(42), and `017` gives
Numeric(15). -/
theorem parse_param_numeric_witness :
    phpdbg_parse_param (spec_utils id) "42".toList 2 = phpdbg_param_t.NUMERIC_PARAM 42 ∧
    phpdbg_parse_param (spec_utils id) "017".toList 3 = phpdbg_param_t.NUMERIC_PARAM 15 := by
  have k1 := (parse_param_numeric (spec_utils id) "42".toList 2 (by decide) (by decide)
    (by decide)).2.1 (Char.ofNat 52) [Char.ofNat 50] (by decide) (by decide) (by decide)
    (by decide)
  have k2 := (parse_param_numeric (spec_utils id) "017".toList 3 (by decide) (by decide)
    (by decide)).2.2.1 [Char.ofNat 49, Char.ofNat 55] (by decide) (by decide)
  refine ⟨?_, ?_⟩
  · rw [k1]; decide
  · rw [k2]; decide

end Phpdbg
